import Mathlib

/-!
# Verification of the kitt price-series analytics engine

Shallow embedding of `backend/api/analytics.py`: date anchoring, the
performance-as-of calculator, the cumulative-return series builder, the
drawdown engine (running-maximum, episode segmentation, worst-episode path),
the annualized-volatility calculator, and the per-ticker batch loops.

Dates are modelled as epoch day numbers (`pd.Timestamp` normalized to
midnight: one integer per calendar day).  Prices are exact rationals except
in the volatility section, where the source takes logarithms and square
roots, so real numbers are used there.  A price series (a pandas `Series`
indexed by dates) is an association list of (date, price) pairs; the
monotone-index assumption pandas slicing relies on is an explicit
`SortedDates` hypothesis in the theorems.
-/

namespace Kitt

/-- Calendar dates as epoch day numbers (models `pd.Timestamp(...).normalize()`). -/
abbrev Date := Int

/-- A price series: (date, value) pairs, dates strictly increasing.
Models a pandas `Series` with a monotone `DatetimeIndex`. -/
abbrev Series (α : Type) := List (Date × α)

/-- Strictly increasing dates: the pandas monotone-index invariant. -/
def SortedDates {α : Type} (s : Series α) : Prop :=
  s.Pairwise (fun a b => a.1 < b.1)

/-- Civil (proleptic Gregorian) date to epoch day number.  Models the day
arithmetic of `pd.Timestamp`; standard days-from-civil algorithm. -/
def daysFromCivil (y m d : Int) : Int :=
  let y' := y - (if m ≤ 2 then 1 else 0)
  let era := y'.fdiv 400
  let yoe := y' - era * 400
  let doy := (153 * (m + (if 2 < m then -3 else 9)) + 2) / 5 + d - 1
  let doe := yoe * 365 + yoe / 4 - yoe / 100 + doy
  era * 146097 + doe - 719468

/-- Epoch day number back to (year, month, day); inverse of `daysFromCivil`. -/
def civilFromDays (z : Int) : Int × Int × Int :=
  let z' := z + 719468
  let era := z'.fdiv 146097
  let doe := z' - era * 146097
  let yoe := (doe - doe / 1460 + doe / 36524 - doe / 146096) / 365
  let y := yoe + era * 400
  let doy := doe - (365 * yoe + yoe / 4 - yoe / 100)
  let mp := (5 * doy + 2) / 153
  let d := doy - (153 * mp + 2) / 5 + 1
  let m := mp + (if mp < 10 then 3 else -9)
  (y + (if m ≤ 2 then 1 else 0), m, d)

/-- The year field of a date (models `pd.Timestamp(...).year`). -/
def yearOf (z : Date) : Int := (civilFromDays z).1

/-- `_nearest_prev_close` / `_nearest_prev_price`: `s.loc[:target]` followed by
taking the last entry.  On a sorted index, `.loc[:target]` keeps exactly the
observations dated on or before `target`; the result is `(price, date)` of the
last of them, or `none` when there is none.  (`_nearest_prev_close`,
`_nearest_prev_close_on_or_before` and `_nearest_prev_price` in the source are
the same function up to `dropna`/`item()` noise, which a NaN-free exact model
does not need.) -/
def nearestPrev {α : Type} (s : Series α) (target : Date) : Option (α × Date) :=
  ((s.filter (fun x => x.1 ≤ target)).getLast?).map (fun x => (x.2, x.1))

/-- The as-of resolution step of `yahoo_perf_asof`: when no as-of date is
given the series' latest observation is used, otherwise the nearest previous
close on or before the requested date. -/
def resolveAsOf {α : Type} (close : Series α) (asof : Option Date) : Option (α × Date) :=
  match asof with
  | none => close.getLast?.map (fun x => (x.2, x.1))
  | some t => nearestPrev close t

/-! ## Drawdown series: `_drawdown_series`

`rm = p.cummax(); dd = p / rm - 1.0`. -/

/-- Running maximum with seed: tail of `p.cummax()` after the head. -/
def cummaxAux (m : ℚ) : List ℚ → List ℚ
  | [] => []
  | x :: xs => max m x :: cummaxAux (max m x) xs

/-- `p.cummax()`: element `i` is the maximum of the first `i + 1` prices. -/
def cummax : List ℚ → List ℚ
  | [] => []
  | x :: xs => x :: cummaxAux x xs

/-- `p / rm - 1.0`: the drawdown series. -/
def ddOf (p : List ℚ) : List ℚ :=
  List.zipWith (fun x m => x / m - 1) p (cummax p)

/-! ## Episode segmentation: `_drawdown_metrics`

`in_dd = dd < 0`
`episode_id = (in_dd != in_dd.shift(1, fill_value=False)).cumsum()`
`for _, block in dd_df[in_dd].groupby(episode_id[in_dd]): ...`

The boolean mask, the shifted comparison, the cumulative sum and the group-by
are each embedded below; since the episode ids are nondecreasing, the pandas
group-by (which iterates groups in key order) is grouping by maximal
consecutive blocks of equal id. -/

/-- `in_dd = dd < 0`. -/
def inDDFlags (dd : List ℚ) : List Bool := dd.map (fun x => decide (x < 0))

/-- `(flags != flags.shift(1, fill_value=prev))`: each flag compared with its
predecessor, the first with `prev`.  The source uses `fill_value=False`, the
`prev` generalization is what a proof by induction tracks. -/
def changeFlagsFrom (prev : Bool) (l : List Bool) : List Bool :=
  List.zipWith (fun a b => a != b) l (prev :: l.dropLast)

/-- `(in_dd != in_dd.shift(1, fill_value=False))`. -/
def changeFlags (l : List Bool) : List Bool := changeFlagsFrom false l

/-- `.cumsum()` of a boolean series, starting from `n`: inclusive prefix
counts of `true`. -/
def cumsumFrom (n : ℕ) : List Bool → List ℕ
  | [] => []
  | b :: bs => (n + (if b then 1 else 0)) :: cumsumFrom (n + (if b then 1 else 0)) bs

/-- The episode id series `(in_dd != in_dd.shift(1, fill_value=False)).cumsum()`. -/
def episodeIds (dd : List ℚ) : List ℕ := cumsumFrom 0 (changeFlags (inDDFlags dd))

/-- The rows of `dd_df` extended with `in_dd` and `episode_id`. -/
def episodeRows (dd : List ℚ) : List (ℚ × Bool × ℕ) :=
  dd.zip ((inDDFlags dd).zip (episodeIds dd))

/-- `dd_df[in_dd]` with its episode ids: the rows in drawdown. -/
def keptRows (dd : List ℚ) : List (ℚ × ℕ) :=
  ((episodeRows dd).filter (fun r => r.2.1)).map (fun r => (r.1, r.2.2))

/-- `groupby(episode_id[in_dd])` over rows whose id key is nondecreasing:
maximal consecutive blocks of equal id. -/
def groupConsecSnd : List (ℚ × ℕ) → List (List (ℚ × ℕ))
  | [] => []
  | r :: rs =>
      (r :: rs.takeWhile (fun x => x.2 == r.2)) ::
        groupConsecSnd (rs.dropWhile (fun x => x.2 == r.2))
termination_by l => l.length
decreasing_by
  simp only [List.length_cons]
  have h : rs.dropWhile (fun x => x.2 == r.2) <:+ rs := List.dropWhile_suffix _
  have := h.length_le
  omega

/-- The drawdown values of each episode block, in order. -/
def episodeBlocks (dd : List ℚ) : List (List ℚ) :=
  (groupConsecSnd (keptRows dd)).map (fun b => b.map Prod.fst)

/-- Minimum of a list (`Series.min()` in pandas); `0` is a junk value for the
empty list, which the metrics only meet behind emptiness guards. -/
def listMin : List ℚ → ℚ
  | [] => 0
  | x :: xs => xs.foldl min x

/-- `durations`: the observation count of each episode. -/
def durations (dd : List ℚ) : List ℕ := (episodeBlocks dd).map List.length

/-- `troughs`: the minimum drawdown inside each episode. -/
def troughs (dd : List ℚ) : List ℚ := (episodeBlocks dd).map listMin

/-- The dictionary returned by `_drawdown_metrics`. -/
structure DrawdownMetricsR where
  observations : ℕ
  max_drawdown : ℚ
  current_drawdown : ℚ
  num_drawdown_episodes : ℕ
  avg_drawdown_length_trading_days : ℚ
  max_drawdown_length_trading_days : ℕ
  worst_episode_trough : ℚ
  deriving Repr, DecidableEq

/-- `_drawdown_metrics(prices)`. -/
def drawdownMetrics (p : List ℚ) : DrawdownMetricsR :=
  let dd := ddOf p
  { observations := dd.length
    max_drawdown := listMin dd
    current_drawdown := (dd.getLast?).getD 0
    num_drawdown_episodes := (durations dd).length
    avg_drawdown_length_trading_days :=
      if durations dd = [] then 0
      else ((durations dd).map (fun n => (n : ℚ))).sum / ((durations dd).length : ℚ)
    max_drawdown_length_trading_days :=
      if durations dd = [] then 0 else (durations dd).foldl max 0
    worst_episode_trough := if troughs dd = [] then 0 else listMin (troughs dd) }

/-- Follows the spec's words, for comparison with `episodeBlocks`: the maximal
runs of consecutive strictly negative drawdown values (a run ends the instant
the drawdown returns to 0). -/
def negRuns : List ℚ → List (List ℚ)
  | [] => []
  | x :: xs =>
      if x < 0 then
        (x :: xs.takeWhile (fun y => decide (y < 0))) ::
          negRuns (xs.dropWhile (fun y => decide (y < 0)))
      else negRuns xs
termination_by l => l.length
decreasing_by
  · simp only [List.length_cons]
    have h : xs.dropWhile (fun y => decide (y < 0)) <:+ xs := List.dropWhile_suffix _
    have := h.length_le
    omega
  · simp

/-- The drawdown-flagged rows of the segmentation pipeline, computed directly:
state is (previous flag, current episode id).  `keptRows` is proved equal to
`keptAux false 0`. -/
def keptAux : Bool → ℕ → List ℚ → List (ℚ × ℕ)
  | _, _, [] => []
  | prev, n, x :: xs =>
      if x < 0 then
        (x, if prev then n else n + 1) :: keptAux true (if prev then n else n + 1) xs
      else keptAux false (if prev then n + 1 else n) xs

/-! ## Worst-episode path: `_max_drawdown_path` -/

/-- `Series.idxmin()` with its value: the (label, value) of the first minimum. -/
def argminPair (l : List (Date × ℚ)) : Option (Date × ℚ) :=
  match l with
  | [] => none
  | x :: xs => some (xs.foldl (fun b y => if y.2 < b.2 then y else b) x)

/-- `Series.idxmax()` with its value: the (label, value) of the first maximum. -/
def argmaxPair (l : List (Date × ℚ)) : Option (Date × ℚ) :=
  match l with
  | [] => none
  | x :: xs => some (xs.foldl (fun b y => if b.2 < y.2 then y else b) x)

/-- The dated drawdown series: each date of `s` with the drawdown of its
price (the `Drawdown` column of `_drawdown_series`). -/
def ddPairs (s : Series ℚ) : List (Date × ℚ) :=
  (s.map Prod.fst).zip (ddOf (s.map Prod.snd))

/-- The dictionary returned by `_max_drawdown_path`. -/
structure DrawdownPathR where
  peak_date : Date
  trough_date : Date
  recovery_date : Option Date
  max_drawdown : ℚ
  deriving Repr, DecidableEq

/-- `_max_drawdown_path(prices)`:
`trough_dt = dd.idxmin()`; `peak_dt = p.loc[:trough_dt].idxmax()`;
`rec = after[after >= peak_price]` over `after = p.loc[trough_dt:]`;
recovery is the first such date, absent when there is none.  `none` is
returned only for an empty series (where the pandas original would raise);
the endpoint guards with a 5-observation minimum. -/
def maxDrawdownPath (s : Series ℚ) : Option DrawdownPathR :=
  match argminPair (ddPairs s) with
  | none => none
  | some (troughDt, troughDD) =>
    match argmaxPair (s.filter (fun x => decide (x.1 ≤ troughDt))) with
    | none => none
    | some (peakDt, peakPrice) =>
      let recs := (s.filter (fun x => decide (troughDt ≤ x.1))).filter
        (fun x => decide (peakPrice ≤ x.2))
      some { peak_date := peakDt, trough_date := troughDt,
             recovery_date := recs.head?.map Prod.fst, max_drawdown := troughDD }

/-! ## Cumulative returns: `cumulative_returns_series_from_prices` -/

/-- `cumulative_returns_series_from_prices(prices, start_ts, end_ts)`:
truncate to `[:end_ts]`, anchor the start, keep from the anchor on, and
rebase as `price / base_price - 1` (decimal). -/
def cumulativeReturnsSeriesFromPrices (s : Series ℚ) (startTs endTs : Date) :
    Except String (Date × ℚ × Series ℚ) :=
  let s1 := s.filter (fun x => x.1 ≤ endTs)
  match nearestPrev s1 startTs with
  | none => .error "No price data on or before start_date"
  | some (basePrice, startUsed) =>
    let s2 := s1.filter (fun x => startUsed ≤ x.1)
    if s2.isEmpty then .error "No prices after start_date_used"
    else .ok (startUsed, basePrice, s2.map (fun x => (x.1, x.2 / basePrice - 1)))

/-! ## Performance as of: `yahoo_perf_asof` -/

/-- The seven return windows of the performance table. -/
inductive Period
  | p1D | p1W | p1M | pYTD | p1Y | p3Y | p5Y
  deriving Repr, DecidableEq

/-- The `targets` table of `yahoo_perf_asof`: fixed `pd.Timedelta` offsets
from the last anchor's date, except YTD which is
`pd.Timestamp(year=last_date.year, month=1, day=1)`. -/
def targetDate (lastDate : Date) : Period → Date
  | .p1D => lastDate - 1
  | .p1W => lastDate - 7
  | .p1M => lastDate - 30
  | .pYTD => daysFromCivil (yearOf lastDate) 1 1
  | .p1Y => lastDate - 365
  | .p3Y => lastDate - 365 * 3
  | .p5Y => lastDate - 365 * 5

/-- Follows the spec's words, for comparison with `targetDate`: the fixed
day-count of each non-YTD window. -/
def specDayCount : Period → Int
  | .p1D => 1
  | .p1W => 7
  | .p1M => 30
  | .pYTD => 0
  | .p1Y => 365
  | .p3Y => 365 * 3
  | .p5Y => 365 * 5

/-- One window of the performance table:
`out[k] = None if past_price in (None, 0) else (last_price / past_price - 1) * 100`. -/
def perfWindow (close : Series ℚ) (lastPrice : ℚ) (lastDate : Date) (w : Period) : Option ℚ :=
  match nearestPrev close (targetDate lastDate w) with
  | none => none
  | some (pastPrice, _) =>
      if pastPrice = 0 then none else some ((lastPrice / pastPrice - 1) * 100)

/-! ## Annualized volatility: `_compute_vols`

The source takes logarithms (`np.log(window).diff()`) and square roots
(`np.sqrt`), so this section works over the reals. -/

/-- Sampling frequency of the volatility request. -/
inductive VolFrequency
  | daily | weekly | monthly
  deriving Repr, DecidableEq

/-- Return mode of the volatility request. -/
inductive ReturnMode
  | log | arith
  deriving Repr, DecidableEq

/-- The `_ANNUALIZATION` table. -/
def annualization : VolFrequency → ℝ
  | .daily => 252
  | .weekly => 52
  | .monthly => 12

/-- Period returns over a price window: `np.log(window).diff().dropna()` in
log mode, `window.pct_change().dropna()` in arithmetic mode. -/
noncomputable def periodReturns (mode : ReturnMode) (window : List ℝ) : List ℝ :=
  match mode with
  | .log => List.zipWith (fun a b => Real.log b - Real.log a) window window.tail
  | .arith => List.zipWith (fun a b => b / a - 1) window window.tail

/-- `rets.std(ddof=1)`: the sample standard deviation,
`sqrt(sum((x - mean)^2) / (n - 1))`. -/
noncomputable def sampleStd (l : List ℝ) : ℝ :=
  Real.sqrt ((l.map (fun x => (x - l.sum / (l.length : ℝ)) ^ 2)).sum / ((l.length : ℝ) - 1))

/-- The dictionary returned by `_compute_vols`. -/
structure VolResult where
  start_used : Date
  end_used : Date
  observations : ℕ
  volatility_period : ℝ
  annualized_volatility : ℝ

/-- `_compute_vols(prices, start_ts, end_ts, frequency, return_mode)`:
anchor both dates, slice `[start_used:end_used]`, compute period returns,
and scale the sample standard deviation by the square root of the
annualization factor. -/
noncomputable def computeVols (prices : Series ℝ) (startTs endTs : Date)
    (freq : VolFrequency) (mode : ReturnMode) : Except String VolResult :=
  match nearestPrev prices startTs with
  | none => .error "No price data on or before start_date"
  | some (_, startUsed) =>
  match nearestPrev prices endTs with
  | none => .error "No price data on or before end_date"
  | some (_, endUsed) =>
    let window := (prices.filter (fun x => decide (startUsed ≤ x.1 ∧ x.1 ≤ endUsed))).map Prod.snd
    if window.length < 3 then .error "Not enough price points in window"
    else
      let rets := periodReturns mode window
      if rets.length < 2 then .error "Not enough returns to compute volatility"
      else .ok { start_used := startUsed, end_used := endUsed,
                 observations := rets.length,
                 volatility_period := sampleStd rets,
                 annualized_volatility := sampleStd rets * Real.sqrt (annualization freq) }

/-! ## Batch loops and input validation

`_run_perf`, `_run_cum_returns`, `_run_drawdown` iterate tickers, catching
each ticker's exception into an errors map keyed by the ticker. -/

/-- The multi-ticker close table (`close_df`): one column per ticker. -/
abbrev Table := List (String × Series ℚ)

/-- `ticker in close_df.columns` plus column extraction. -/
def lookupCol (close : Table) (t : String) : Option (Series ℚ) :=
  (close.find? (fun c => c.1 == t)).map Prod.snd

/-- One ticker's `try` body in the shared batch loop shape: an `ok` row is
appended to `data`, an exception message to `errors[ticker]`. -/
def batchStep {β : Type} (f : String → Except String β)
    (acc : List β × List (String × String)) (t : String) :
    List β × List (String × String) :=
  match f t with
  | .ok row => (acc.1 ++ [row], acc.2)
  | .error e => (acc.1, acc.2 ++ [(t, e)])

/-- The errors-map entry a ticker contributes: its exception message keyed
by the ticker, nothing when its computation succeeded. -/
def errEntry {β : Type} (f : String → Except String β) (t : String) :
    Option (String × String) :=
  match f t with
  | .error e => some (t, e)
  | .ok _ => none

/-- The shared per-ticker loop of `_run_perf` / `_run_cum_returns` /
`_run_drawdown`: fold over the tickers, collecting rows and errors. -/
def runBatch {β : Type} (f : String → Except String β) (tickers : List String) :
    List β × List (String × String) :=
  tickers.foldl (batchStep f) ([], [])

/-- One row of the drawdown response. -/
structure DrawdownRow where
  ticker : String
  metrics : DrawdownMetricsR
  path : Option DrawdownPathR
  deriving Repr, DecidableEq

/-- The per-ticker body of `_run_drawdown`: missing column and short series
raise; otherwise metrics and path are computed. -/
def runDrawdownTicker (close : Table) (t : String) : Except String DrawdownRow :=
  match lookupCol close t with
  | none => .error "Ticker not found in downloaded data"
  | some s =>
      if s.length < 5 then .error "Not enough points in window"
      else .ok { ticker := t, metrics := drawdownMetrics (s.map Prod.snd),
                 path := maxDrawdownPath s }

/-- The ticker loop of `_run_drawdown`. -/
def runDrawdown (tickers : List String) (close : Table) :
    List DrawdownRow × List (String × String) :=
  runBatch (runDrawdownTicker close) tickers

/-- One row of the cumulative-returns response. -/
structure CumRow where
  ticker : String
  start_date_used : Date
  base_price : ℚ
  points : Series ℚ
  deriving Repr, DecidableEq

/-- The per-ticker body of `_run_cum_returns`. -/
def runCumReturnsTicker (close : Table) (startTs endTs : Date) (t : String) :
    Except String CumRow :=
  match lookupCol close t with
  | none => .error "Ticker not present in downloaded data"
  | some s =>
      match cumulativeReturnsSeriesFromPrices s startTs endTs with
      | .error e => .error e
      | .ok (u, b, pts) =>
          .ok { ticker := t, start_date_used := u, base_price := b, points := pts }

/-- The ticker loop of `_run_cum_returns`. -/
def runCumReturns (tickers : List String) (close : Table) (startTs endTs : Date) :
    List CumRow × List (String × String) :=
  runBatch (runCumReturnsTicker close startTs endTs) tickers

/-- An incoming raw date parameter: not given, a malformed string, or a
well-formed calendar date. -/
inductive RawDate
  | missing
  | malformed (msg : String)
  | valid (d : Date)
  deriving Repr, DecidableEq

/-- `utils.convert_to_timestamp`: `None` maps to `None`, a well-formed string
parses, and a malformed string raises (`pd.Timestamp` raises `ValueError`). -/
def convertToTimestamp : RawDate → Except String (Option Date)
  | .missing => .ok none
  | .malformed msg => .error msg
  | .valid d => .ok (some d)

/-- The invalid-input conditions of the spec's error taxonomy on a pair of
raw date parameters: a malformed or missing date, or end before start. -/
def InvalidDates (startRaw endRaw : RawDate) : Prop :=
  (∃ m, startRaw = .malformed m) ∨ (∃ m, endRaw = .malformed m)
  ∨ startRaw = .missing ∨ endRaw = .missing
  ∨ (∃ s e, startRaw = .valid s ∧ endRaw = .valid e ∧ e < s)

/-- `_run_cum_returns` around its ticker loop: dates are parsed and checked
before the download (`fetch`) is consulted; a parse failure or inverted range
raises for the whole batch. -/
def runCumReturnsBatch (tickers : List String) (startRaw endRaw : RawDate)
    (fetch : Unit → Table) :
    Except String (List CumRow × List (String × String)) :=
  match convertToTimestamp startRaw with
  | .error e => .error e
  | .ok startOpt =>
  match convertToTimestamp endRaw with
  | .error e => .error e
  | .ok endOpt =>
  match startOpt, endOpt with
  | some startTs, some endTs =>
      if endTs < startTs then .error "end_date must be >= start_date"
      else
        let close := fetch ()
        if close.isEmpty then
          .error "No data returned by Yahoo for requested tickers/date range"
        else .ok (runCumReturns tickers close startTs endTs)
  | _, _ => .error "start_date and end_date must be valid dates (YYYY-MM-DD)"

/-- One row of the performance table. -/
structure PerfRow where
  ticker : String
  asof_requested : Option Date
  asof_used : Date
  last : ℚ
  perf : Period → Option ℚ

/-- `yahoo_perf_asof(ticker, asof, ...)`: the fetch happens first and an
empty history raises; only then is the as-of parameter parsed
(`utils.convert_to_timestamp(asof)`) and anchored. -/
def yahooPerfAsof (t : String) (fetch : Option (Series ℚ)) (asof : RawDate) :
    Except String PerfRow :=
  match fetch with
  | none => .error "No data for ticker"
  | some close =>
    if close.isEmpty then .error "No data for ticker"
    else
      match convertToTimestamp asof with
      | .error e => .error e
      | .ok asofTs =>
        match resolveAsOf close asofTs with
        | none => .error "No data on or before asof"
        | some (lastPrice, lastDate) =>
            .ok { ticker := t, asof_requested := asofTs, asof_used := lastDate,
                  last := lastPrice, perf := fun w => perfWindow close lastPrice lastDate w }

/-- The ticker loop of `_run_perf`: every exception of `yahoo_perf_asof`,
including the as-of parse failure, is caught per ticker. -/
def runPerf (tickers : List String) (fetch : String → Option (Series ℚ))
    (asof : RawDate) : List PerfRow × List (String × String) :=
  runBatch (fun t => yahooPerfAsof t (fetch t) asof) tickers

/-! ## Helper lemmas on sorted association lists -/

theorem getLast?_mem {α : Type} {l : List α} {x : α} (h : l.getLast? = some x) :
    x ∈ l := by
  cases l with
  | nil => simp at h
  | cons a as =>
    have := List.getLast?_eq_getLast (a :: as) (by simp)
    rw [this] at h
    injection h with h
    exact h ▸ List.getLast_mem _

theorem sorted_le_getLast {α : Type} (s : Series α) : SortedDates s →
    ∀ x : Date × α, s.getLast? = some x → ∀ y ∈ s, y.1 ≤ x.1 := by
  induction s with
  | nil => intro _ x hx; simp at hx
  | cons a as ih =>
    intro hs x hx y hy
    rcases List.pairwise_cons.mp hs with ⟨ha, has⟩
    cases as with
    | nil =>
      simp only [List.getLast?_singleton, Option.some.injEq] at hx
      simp only [List.mem_singleton] at hy
      subst hx; subst hy; exact le_refl _
    | cons b bs =>
      rw [List.getLast?_cons_cons] at hx
      rcases List.mem_cons.mp hy with rfl | hy'
      · have hb := ih has x hx b (by simp)
        have hab : y.1 < b.1 := ha b (by simp)
        exact le_of_lt (lt_of_lt_of_le hab hb)
      · exact ih has x hx y hy'

theorem nearestPrev_spec {α : Type} {s : Series α} (hs : SortedDates s)
    {target : Date} {p : α} {d : Date}
    (h : nearestPrev s target = some (p, d)) :
    d ≤ target ∧ (d, p) ∈ s ∧ ∀ y ∈ s, y.1 ≤ target → y.1 ≤ d := by
  unfold nearestPrev at h
  cases hlast : (s.filter (fun x => x.1 ≤ target)).getLast? with
  | none => rw [hlast] at h; simp at h
  | some dp =>
    obtain ⟨d0, p0⟩ := dp
    rw [hlast] at h
    simp only [Option.map, Option.some.injEq, Prod.mk.injEq] at h
    obtain ⟨h1, h2⟩ := h
    rw [h1, h2] at hlast
    have hmem : (d, p) ∈ s.filter (fun x => x.1 ≤ target) := getLast?_mem hlast
    have hmem_s : (d, p) ∈ s := (List.mem_filter.mp hmem).1
    have hle : d ≤ target := by
      have := (List.mem_filter.mp hmem).2
      simpa using this
    refine ⟨hle, hmem_s, ?_⟩
    intro y hy hyt
    have hy' : y ∈ s.filter (fun x => x.1 ≤ target) :=
      List.mem_filter.mpr ⟨hy, by simpa using hyt⟩
    have hs' : SortedDates (s.filter (fun x => x.1 ≤ target)) :=
      List.Pairwise.filter _ hs
    exact sorted_le_getLast _ hs' _ hlast y hy'

theorem nearestPrev_none_iff {α : Type} (s : Series α) (target : Date) :
    nearestPrev s target = none ↔ ∀ y ∈ s, ¬ y.1 ≤ target := by
  unfold nearestPrev
  constructor
  · intro h y hy hyt
    cases hlast : (s.filter (fun x => x.1 ≤ target)).getLast? with
    | some dp => rw [hlast] at h; simp at h
    | none =>
      have hnil : s.filter (fun x => x.1 ≤ target) = [] := by
        cases hfe : s.filter (fun x => x.1 ≤ target) with
        | nil => rfl
        | cons c cs => rw [hfe] at hlast; simp [List.getLast?] at hlast
      have : y ∈ s.filter (fun x => x.1 ≤ target) :=
        List.mem_filter.mpr ⟨hy, by simpa using hyt⟩
      rw [hnil] at this
      simp at this
  · intro h
    have hnil : s.filter (fun x => x.1 ≤ target) = [] := by
      apply List.filter_eq_nil_iff.mpr
      intro y hy
      simpa using h y hy
    rw [hnil]
    rfl

/-- C1: date anchoring selects the last observation dated on or before the
requested date — the maximum such date in the series — returns absent when
none exists, and with no requested date it returns the series' latest
observation. -/
theorem date_anchoring_correct {α : Type} (s : Series α) (hs : SortedDates s) :
    (∀ (D : Date) (p : α) (d : Date), nearestPrev s D = some (p, d) →
        d ≤ D ∧ (d, p) ∈ s ∧ ∀ y ∈ s, y.1 ≤ D → y.1 ≤ d)
    ∧ (∀ D : Date, nearestPrev s D = none ↔ ∀ y ∈ s, ¬ y.1 ≤ D)
    ∧ (∀ (p : α) (d : Date), resolveAsOf s none = some (p, d) ↔ s.getLast? = some (d, p)) := by
  refine ⟨fun D p d h => nearestPrev_spec hs h,
          fun D => nearestPrev_none_iff s D, fun p d => ?_⟩
  have hre : resolveAsOf s none = s.getLast?.map (fun x => (x.2, x.1)) := rfl
  rw [hre]
  cases hlast : s.getLast? with
  | none => simp
  | some dp =>
    obtain ⟨d0, p0⟩ := dp
    simp only [Option.map, Option.some.injEq, Prod.mk.injEq]
    tauto

/-- Witness for C1 at a concrete sorted series. -/
theorem date_anchoring_correct_witness :
    SortedDates [((1 : Date), (10 : ℚ)), (3, 20), (5, 30)]
    ∧ ((3 : Date) ≤ 4 ∧ ((3 : Date), (20 : ℚ)) ∈ [((1 : Date), (10 : ℚ)), (3, 20), (5, 30)]
        ∧ ∀ y ∈ [((1 : Date), (10 : ℚ)), (3, 20), (5, 30)], y.1 ≤ 4 → y.1 ≤ 3) := by
  have hs : SortedDates [((1 : Date), (10 : ℚ)), (3, 20), (5, 30)] := by
    unfold SortedDates; decide
  exact ⟨hs, (date_anchoring_correct [((1 : Date), (10 : ℚ)), (3, 20), (5, 30)] hs).1
      4 20 3 (by decide)⟩

/-! ## Lemmas on the running maximum -/

theorem cummaxAux_length (m : ℚ) (l : List ℚ) : (cummaxAux m l).length = l.length := by
  induction l generalizing m with
  | nil => rfl
  | cons x xs ih => simp [cummaxAux, ih]

theorem cummax_length (l : List ℚ) : (cummax l).length = l.length := by
  cases l with
  | nil => rfl
  | cons x xs => simp [cummax, cummaxAux_length]

theorem ddOf_length (l : List ℚ) : (ddOf l).length = l.length := by
  simp [ddOf, cummax_length]

theorem cummaxAux_get (l : List ℚ) :
    ∀ (m : ℚ) (i : ℕ) (hi : i < l.length),
      (cummaxAux m l).get ⟨i, by rw [cummaxAux_length]; exact hi⟩ =
        (l.take (i + 1)).foldl max m := by
  induction l with
  | nil => intro m i hi; simp at hi
  | cons x xs ih =>
    intro m i hi
    cases i with
    | zero => simp [cummaxAux]
    | succ j =>
      have hj : j < xs.length := by simpa using hi
      have := ih (max m x) j hj
      simpa [cummaxAux, List.take_succ_cons] using this

theorem cummax_get (l : List ℚ) (i : ℕ) (hi : i < l.length) :
    (cummax l).get ⟨i, by rw [cummax_length]; exact hi⟩ =
      (l.take (i + 1)).foldl max (l.get ⟨0, Nat.lt_of_le_of_lt (Nat.zero_le i) hi⟩) := by
  cases l with
  | nil => simp at hi
  | cons x xs =>
    cases i with
    | zero => simp [cummax]
    | succ j =>
      have hj : j < xs.length := by simpa using hi
      have := cummaxAux_get xs x j hj
      simp only [cummax, List.get_cons_succ]
      simp only [List.take_succ_cons, List.foldl_cons, max_self]
      simpa using this

theorem foldl_max_le_iff (l : List ℚ) (m c : ℚ) :
    l.foldl max m ≤ c ↔ m ≤ c ∧ ∀ x ∈ l, x ≤ c := by
  induction l generalizing m with
  | nil => simp
  | cons x xs ih =>
    simp only [List.foldl_cons, ih, max_le_iff, List.mem_cons]
    constructor
    · rintro ⟨⟨hm, hx⟩, hall⟩
      exact ⟨hm, fun y hy => by rcases hy with rfl | hy; exact hx; exact hall y hy⟩
    · rintro ⟨hm, hall⟩
      exact ⟨⟨hm, hall x (Or.inl rfl)⟩, fun y hy => hall y (Or.inr hy)⟩

theorem foldl_max_mem (l : List ℚ) (m : ℚ) :
    l.foldl max m = m ∨ l.foldl max m ∈ l := by
  induction l generalizing m with
  | nil => simp
  | cons x xs ih =>
    simp only [List.foldl_cons, List.mem_cons]
    rcases ih (max m x) with h | h
    · rcases max_cases m x with ⟨he, _⟩ | ⟨he, _⟩
      · exact Or.inl (h.trans he)
      · exact Or.inr (Or.inl (h.trans he))
    · exact Or.inr (Or.inr h)

theorem le_foldl_max (l : List ℚ) (m : ℚ) :
    m ≤ l.foldl max m ∧ ∀ x ∈ l, x ≤ l.foldl max m :=
  (foldl_max_le_iff l m (l.foldl max m)).mp (le_refl _)

/-- C2: with positive prices the drawdown is everywhere ≤ 0 and vanishes
exactly where the price equals its running maximum, the running maximum
being the maximum price over the prefix up to each index. -/
theorem drawdown_sign_invariant (l : List ℚ) (hpos : ∀ x ∈ l, 0 < x)
    (i : ℕ) (hi : i < l.length) :
    (ddOf l).get ⟨i, by rw [ddOf_length]; exact hi⟩ ≤ 0
    ∧ ((ddOf l).get ⟨i, by rw [ddOf_length]; exact hi⟩ = 0 ↔
        l.get ⟨i, hi⟩ = (cummax l).get ⟨i, by rw [cummax_length]; exact hi⟩)
    ∧ (∀ (j : ℕ) (hj : j < l.length), j ≤ i →
        l.get ⟨j, hj⟩ ≤ (cummax l).get ⟨i, by rw [cummax_length]; exact hi⟩)
    ∧ (∃ (j : ℕ) (hj : j < l.length), j ≤ i ∧
        l.get ⟨j, hj⟩ = (cummax l).get ⟨i, by rw [cummax_length]; exact hi⟩) := by
  have h0 : 0 < l.length := Nat.lt_of_le_of_lt (Nat.zero_le i) hi
  set rm := (cummax l).get ⟨i, by rw [cummax_length]; exact hi⟩ with hrm
  have hget : rm = (l.take (i + 1)).foldl max (l.get ⟨0, h0⟩) := cummax_get l i hi
  have hhead_mem : l.get ⟨0, h0⟩ ∈ l.take (i + 1) := by
    cases l with
    | nil => simp at h0
    | cons x xs => simp [List.take_succ_cons]
  have hmem : rm ∈ l.take (i + 1) := by
    rcases foldl_max_mem (l.take (i + 1)) (l.get ⟨0, h0⟩) with h | h
    · rw [hget, h]; exact hhead_mem
    · rw [hget]; exact h
  have hub : ∀ x ∈ l.take (i + 1), x ≤ rm := by
    intro x hx
    rw [hget]
    exact (le_foldl_max _ _).2 x hx
  have hrm_pos : 0 < rm := hpos rm (List.take_subset _ _ hmem)
  have hi_self : l.get ⟨i, hi⟩ ≤ rm := by
    apply hub
    rw [List.mem_take_iff_getElem]
    exact ⟨i, by omega, by simp⟩
  have hdd : (ddOf l).get ⟨i, by rw [ddOf_length]; exact hi⟩ = l.get ⟨i, hi⟩ / rm - 1 := by
    simp only [ddOf]
    rw [List.get_eq_getElem, List.getElem_zipWith]
    simp [hrm, List.get_eq_getElem]
  refine ⟨?_, ?_, ?_, ?_⟩
  · rw [hdd]
    have : l.get ⟨i, hi⟩ / rm ≤ 1 := (div_le_one hrm_pos).mpr hi_self
    linarith
  · rw [hdd]
    constructor
    · intro h
      have : l.get ⟨i, hi⟩ / rm = 1 := by linarith
      field_simp at this
      exact this
    · intro h
      rw [h, div_self (ne_of_gt hrm_pos)]
      ring
  · intro j hj hji
    apply hub
    rw [List.mem_take_iff_getElem]
    exact ⟨j, by omega, by simp⟩
  · have := List.mem_take_iff_getElem.mp hmem
    obtain ⟨j, hj, hjv⟩ := this
    refine ⟨j, by omega, by omega, ?_⟩
    simpa using hjv

/-- Witness for C2 on a concrete positive price list with a drawdown. -/
theorem drawdown_sign_invariant_witness :
    (∀ x ∈ [(10 : ℚ), 8, 12], 0 < x)
    ∧ ((ddOf [(10 : ℚ), 8, 12]).get ⟨1, by decide⟩ ≤ 0
        ∧ ((ddOf [(10 : ℚ), 8, 12]).get ⟨1, by decide⟩ = 0 ↔
            ([(10 : ℚ), 8, 12]).get ⟨1, by decide⟩ = (cummax [(10 : ℚ), 8, 12]).get ⟨1, by decide⟩)) := by
  have hpos : ∀ x ∈ [(10 : ℚ), 8, 12], 0 < x := by decide
  have h := drawdown_sign_invariant [(10 : ℚ), 8, 12] hpos 1 (by decide)
  exact ⟨hpos, h.1, h.2.1⟩

/-! ## Lemmas on the episode segmentation pipeline -/

theorem changeFlagsFrom_cons (prev f : Bool) (fs : List Bool) :
    changeFlagsFrom prev (f :: fs) = (f != prev) :: changeFlagsFrom f fs := by
  cases fs <;> rfl

theorem keptRows_eq_general (dd : List ℚ) : ∀ (prev : Bool) (n : ℕ),
    ((dd.zip ((inDDFlags dd).zip
        (cumsumFrom n (changeFlagsFrom prev (inDDFlags dd))))).filter
      (fun r => r.2.1)).map (fun r => (r.1, r.2.2)) = keptAux prev n dd := by
  induction dd with
  | nil => intro prev n; rfl
  | cons x xs ih =>
    intro prev n
    have hflag : inDDFlags (x :: xs) = decide (x < 0) :: inDDFlags xs := rfl
    rw [hflag, changeFlagsFrom_cons]
    by_cases hx : x < 0
    · have hdx : decide (x < 0) = true := by simpa using hx
      cases prev <;> simp [hdx, cumsumFrom, keptAux, hx, ih]
    · have hdx : decide (x < 0) = false := by simpa using hx
      cases prev <;> simp [hdx, cumsumFrom, keptAux, hx, ih]

theorem keptRows_eq (dd : List ℚ) : keptRows dd = keptAux false 0 dd :=
  keptRows_eq_general dd false 0

theorem takeWhile_append_all {α : Type} (p : α → Bool) (a b : List α)
    (ha : ∀ e ∈ a, p e = true) :
    (a ++ b).takeWhile p = a ++ b.takeWhile p := by
  induction a with
  | nil => simp
  | cons x xs ih =>
    have hx : p x = true := ha x (by simp)
    simp only [List.cons_append, List.takeWhile_cons, hx, if_true]
    rw [ih (fun e he => ha e (by simp [he]))]

theorem dropWhile_append_all {α : Type} (p : α → Bool) (a b : List α)
    (ha : ∀ e ∈ a, p e = true) :
    (a ++ b).dropWhile p = b.dropWhile p := by
  induction a with
  | nil => simp
  | cons x xs ih =>
    have hx : p x = true := ha x (by simp)
    simp only [List.cons_append, List.dropWhile_cons, hx, if_true]
    exact ih (fun e he => ha e (by simp [he]))

theorem dropWhile_head_false {α : Type} (p : α → Bool) (l : List α) :
    ∀ y ys, l.dropWhile p = y :: ys → p y = false := by
  induction l with
  | nil => intro y ys h; simp at h
  | cons x xs ih =>
    intro y ys h
    by_cases hx : p x = true
    · rw [List.dropWhile_cons, if_pos hx] at h
      exact ih y ys h
    · rw [List.dropWhile_cons, if_neg hx] at h
      injection h with h1 _
      subst h1
      simpa using hx

/-- Inside a drawdown run the pipeline keeps the id constant: the kept rows
starting in state `(true, m)` are the leading negative values tagged `m`,
followed by the kept rows of the remainder in the same state. -/
theorem keptAux_true_split (xs : List ℚ) (m : ℕ) :
    keptAux true m xs =
      (xs.takeWhile (fun y => decide (y < 0))).map (fun v => (v, m)) ++
        keptAux true m (xs.dropWhile (fun y => decide (y < 0))) := by
  induction xs with
  | nil => rfl
  | cons y ys ih =>
    by_cases hy : y < 0
    · have hdy : decide (y < 0) = true := by simpa using hy
      simp only [keptAux, hy, if_true, List.takeWhile_cons, List.dropWhile_cons, hdy,
        List.map_cons, List.cons_append]
      exact congrArg _ ih
    · have hdy : decide (y < 0) = false := by simpa using hy
      simp [keptAux, hy, List.takeWhile_cons, List.dropWhile_cons, hdy]

/-- Episode ids never fall below the running counter: `k` in state
`(true, k)`, `k + 1` in state `(false, k)`. -/
theorem keptAux_id_lb (l : List ℚ) : ∀ k : ℕ,
    (∀ r ∈ keptAux true k l, k ≤ r.2) ∧ (∀ r ∈ keptAux false k l, k + 1 ≤ r.2) := by
  induction l with
  | nil => intro k; constructor <;> intro r hr <;> simp [keptAux] at hr
  | cons x xs ih =>
    intro k
    by_cases hx : x < 0
    · constructor
      · intro r hr
        simp only [keptAux, hx, if_true, List.mem_cons] at hr
        rcases hr with rfl | hr
        · simp
        · exact (ih k).1 r hr
      · intro r hr
        simp only [keptAux, hx, if_true, List.mem_cons] at hr
        rcases hr with rfl | hr
        · simp
        · exact (ih (k + 1)).1 r hr
    · constructor
      · intro r hr
        simp only [keptAux, hx, if_false] at hr
        have := (ih (k + 1)).2 r hr
        omega
      · intro r hr
        simp only [keptAux, hx, if_false] at hr
        exact (ih k).2 r hr

/-- The grouped kept rows of the pipeline, projected to their drawdown
values, are exactly the maximal runs of negative values — for any starting
state of the pipeline. -/
theorem groupKept_eq_negRuns : ∀ (N : ℕ) (dd : List ℚ), dd.length ≤ N →
    ∀ (prev : Bool) (n : ℕ),
      (groupConsecSnd (keptAux prev n dd)).map (fun b => b.map Prod.fst) = negRuns dd := by
  intro N
  induction N with
  | zero =>
    intro dd hdd prev n
    have : dd = [] := List.length_eq_zero.mp (Nat.le_zero.mp hdd)
    subst this
    simp [keptAux, groupConsecSnd, negRuns]
  | succ N ih =>
    intro dd hdd prev n
    cases dd with
    | nil => simp [keptAux, groupConsecSnd, negRuns]
    | cons x xs =>
      by_cases hx : x < 0
      · -- entering (or continuing) a run: the head is kept with id m
        set m := if prev then n else n + 1 with hm
        have hstep : keptAux prev n (x :: xs) = (x, m) :: keptAux true m xs := by
          simp [keptAux, hx, hm]
        rw [hstep, keptAux_true_split]
        set tw := xs.takeWhile (fun y => decide (y < 0)) with htw
        set dr := xs.dropWhile (fun y => decide (y < 0)) with hdr
        have hall : ∀ e ∈ tw.map (fun v => (v, m)), (fun r : ℚ × ℕ => r.2 == m) e = true := by
          intro e he
          simp only [List.mem_map] at he
          obtain ⟨v, _, rfl⟩ := he
          simp
        -- the rest of the kept rows after the run
        have hrest : ∀ r ∈ keptAux true m dr, ¬ (r.2 == m) = true := by
          intro r hr
          cases hdrc : dr with
          | nil => rw [hdrc] at hr; simp [keptAux] at hr
          | cons y ys =>
            have hxs : xs.dropWhile (fun y => decide (y < 0)) = y :: ys := by
              rw [← hdr]; exact hdrc
            have hy : ¬ y < 0 := by
              have := dropWhile_head_false (fun y => decide (y < 0)) xs y ys hxs
              simpa using this
            rw [hdrc] at hr
            simp only [keptAux, hy, if_false] at hr
            have := (keptAux_id_lb ys (m + 1)).2 r hr
            simp only [beq_iff_eq]
            omega
        rw [groupConsecSnd]
        rw [takeWhile_append_all _ _ _ hall, dropWhile_append_all _ _ _ hall]
        have hrest_tw : (keptAux true m dr).takeWhile (fun x => x.2 == m) = [] := by
          cases hk : keptAux true m dr with
          | nil => rfl
          | cons r rs =>
            have : ¬ (r.2 == m) = true := hrest r (by rw [hk]; simp)
            simp only [List.takeWhile_cons]
            rw [if_neg this]
        have hrest_dw : (keptAux true m dr).dropWhile (fun x => x.2 == m) = keptAux true m dr := by
          cases hk : keptAux true m dr with
          | nil => rfl
          | cons r rs =>
            have : ¬ (r.2 == m) = true := hrest r (by rw [hk]; simp)
            simp only [List.dropWhile_cons]
            rw [if_neg this]
        rw [hrest_tw, hrest_dw, List.append_nil]
        -- the recursive part
        have htail : (groupConsecSnd (keptAux true m dr)).map (fun b => b.map Prod.fst) =
            negRuns dr := by
          cases hdrc : dr with
          | nil => simp [keptAux, groupConsecSnd, negRuns]
          | cons y ys =>
            have hxs : xs.dropWhile (fun y => decide (y < 0)) = y :: ys := by
              rw [← hdr]; exact hdrc
            have hy : ¬ y < 0 := by
              have := dropWhile_head_false (fun y => decide (y < 0)) xs y ys hxs
              simpa using this
            have hlen : ys.length ≤ N := by
              have h1 : dr.length ≤ xs.length := by
                rw [hdr]
                exact (List.dropWhile_suffix _).length_le
              rw [hdrc] at h1
              simp only [List.length_cons] at h1 hdd
              omega
            have hk : keptAux true m (y :: ys) = keptAux false (m + 1) ys := by
              simp [keptAux, hy]
            rw [hk, ih ys hlen false (m + 1)]
            have hnr : negRuns (y :: ys) = negRuns ys := by
              rw [negRuns]
              simp [hy]
            rw [hnr]
        have hneg : negRuns (x :: xs) = (x :: tw) :: negRuns dr := by
          rw [negRuns]
          simp [hx, htw, hdr]
        rw [hneg]
        simp only [List.map_cons, List.map_map]
        rw [htail]
        have hco : (Prod.fst ∘ fun v : ℚ => (v, m)) = fun v : ℚ => v := rfl
        rw [hco]
        simp
      · -- not in drawdown: the head is dropped on both sides
        have hstep : keptAux prev n (x :: xs) =
            keptAux false (if prev then n + 1 else n) xs := by
          simp [keptAux, hx]
        have hlen : xs.length ≤ N := by
          simp only [List.length_cons] at hdd
          omega
        rw [hstep, ih xs hlen false _]
        rw [negRuns]
        simp [hx]

/-! ## Minimum lemmas and facts about the maximal runs -/

theorem le_foldl_min_iff (l : List ℚ) (m c : ℚ) :
    c ≤ l.foldl min m ↔ c ≤ m ∧ ∀ x ∈ l, c ≤ x := by
  induction l generalizing m with
  | nil => simp
  | cons x xs ih =>
    simp only [List.foldl_cons, ih, le_min_iff, List.mem_cons]
    constructor
    · rintro ⟨⟨hm, hx⟩, hall⟩
      exact ⟨hm, fun y hy => by rcases hy with rfl | hy; exact hx; exact hall y hy⟩
    · rintro ⟨hm, hall⟩
      exact ⟨⟨hm, hall x (Or.inl rfl)⟩, fun y hy => hall y (Or.inr hy)⟩

theorem foldl_min_mem (l : List ℚ) (m : ℚ) :
    l.foldl min m = m ∨ l.foldl min m ∈ l := by
  induction l generalizing m with
  | nil => simp
  | cons x xs ih =>
    simp only [List.foldl_cons, List.mem_cons]
    rcases ih (min m x) with h | h
    · rcases min_cases m x with ⟨he, _⟩ | ⟨he, _⟩
      · exact Or.inl (h.trans he)
      · exact Or.inr (Or.inl (h.trans he))
    · exact Or.inr (Or.inr h)

theorem foldl_min_le (l : List ℚ) (m : ℚ) :
    l.foldl min m ≤ m ∧ ∀ x ∈ l, l.foldl min m ≤ x :=
  (le_foldl_min_iff l m (l.foldl min m)).mp (le_refl _)

theorem listMin_mem (l : List ℚ) (h : l ≠ []) : listMin l ∈ l := by
  cases l with
  | nil => exact absurd rfl h
  | cons x xs =>
    rcases foldl_min_mem xs x with he | he
    · simp [listMin, he]
    · simp [listMin, List.mem_cons, he]

theorem listMin_le (l : List ℚ) : ∀ y ∈ l, listMin l ≤ y := by
  cases l with
  | nil => intro y hy; simp at hy
  | cons x xs =>
    intro y hy
    rcases List.mem_cons.mp hy with rfl | hy
    · exact (foldl_min_le xs y).1
    · exact (foldl_min_le xs x).2 y hy

theorem negRuns_blocks : ∀ (N : ℕ) (l : List ℚ), l.length ≤ N →
    ∀ b ∈ negRuns l, b ≠ [] ∧ ∀ y ∈ b, y < 0 := by
  intro N
  induction N with
  | zero =>
    intro l hl b hb
    have : l = [] := List.length_eq_zero.mp (Nat.le_zero.mp hl)
    subst this
    simp [negRuns] at hb
  | succ N ih =>
    intro l hl b hb
    cases l with
    | nil => simp [negRuns] at hb
    | cons x xs =>
      by_cases hx : x < 0
      · rw [negRuns] at hb
        simp only [hx, if_true, List.mem_cons] at hb
        rcases hb with rfl | hb
        · refine ⟨by simp, ?_⟩
          intro y hy
          rcases List.mem_cons.mp hy with rfl | hy
          · exact hx
          · have := List.mem_takeWhile_imp hy
            simpa using this
        · have hlen : (xs.dropWhile (fun y => decide (y < 0))).length ≤ N := by
            have hsuf : xs.dropWhile (fun y => decide (y < 0)) <:+ xs :=
              List.dropWhile_suffix _
            have := hsuf.length_le
            simp only [List.length_cons] at hl
            omega
          exact ih _ hlen b hb
      · rw [negRuns] at hb
        simp only [hx, if_false] at hb
        have hlen : xs.length ≤ N := by
          simp only [List.length_cons] at hl
          omega
        exact ih xs hlen b hb

theorem filter_takeWhile_dropWhile {α : Type} (p : α → Bool) (l : List α) :
    l.takeWhile p ++ (l.dropWhile p).filter p = l.filter p := by
  induction l with
  | nil => simp
  | cons x xs ih =>
    by_cases hx : p x = true
    · simp only [List.takeWhile_cons, List.dropWhile_cons, hx, if_true,
        List.filter_cons, List.cons_append]
      rw [ih]
    · have hx' : p x = false := by simpa using hx
      simp [List.takeWhile_cons, List.dropWhile_cons, hx', List.filter_cons]

theorem negRuns_flatten : ∀ (N : ℕ) (l : List ℚ), l.length ≤ N →
    (negRuns l).flatten = l.filter (fun y => decide (y < 0)) := by
  intro N
  induction N with
  | zero =>
    intro l hl
    have : l = [] := List.length_eq_zero.mp (Nat.le_zero.mp hl)
    subst this
    simp [negRuns]
  | succ N ih =>
    intro l hl
    cases l with
    | nil => simp [negRuns]
    | cons x xs =>
      by_cases hx : x < 0
      · have hdx : decide (x < 0) = true := by simpa using hx
        rw [negRuns, if_pos hx]
        have hfc : (x :: xs).filter (fun y => decide (y < 0)) =
            x :: xs.filter (fun y => decide (y < 0)) := by
          simp [List.filter_cons, hdx]
        rw [hfc]
        have hlen : (xs.dropWhile (fun y => decide (y < 0))).length ≤ N := by
          have hsuf : xs.dropWhile (fun y => decide (y < 0)) <:+ xs :=
            List.dropWhile_suffix _
          have := hsuf.length_le
          simp only [List.length_cons] at hl
          omega
        simp only [List.flatten_cons, List.cons_append, List.cons.injEq, true_and]
        rw [ih _ hlen]
        rw [filter_takeWhile_dropWhile]
      · have hdx : decide (x < 0) = false := by simpa using hx
        rw [negRuns, if_neg hx]
        have hfc : (x :: xs).filter (fun y => decide (y < 0)) =
            xs.filter (fun y => decide (y < 0)) := by
          simp [List.filter_cons, hdx]
        rw [hfc]
        have hlen : xs.length ≤ N := by
          simp only [List.length_cons] at hl
          omega
        exact ih xs hlen

theorem negRuns_nil_of_nonneg (l : List ℚ) (h : ∀ y ∈ l, ¬ y < 0) :
    negRuns l = [] := by
  induction l with
  | nil => simp [negRuns]
  | cons x xs ih =>
    have hx : ¬ x < 0 := h x (by simp)
    rw [negRuns]
    simp only [hx, if_false]
    exact ih (fun y hy => h y (by simp [hy]))

theorem ddOf_mem_le_zero (p : List ℚ) (hpos : ∀ x ∈ p, 0 < x) :
    ∀ y ∈ ddOf p, y ≤ 0 := by
  intro y hy
  rcases List.mem_iff_get.mp hy with ⟨i, rfl⟩
  have hi : (i : ℕ) < p.length := by
    have h1 := i.isLt
    have h2 := ddOf_length p
    omega
  have h := (drawdown_sign_invariant p hpos i hi).1
  exact h

/-- C3: the drawdown episodes produced by the shift/cumsum/groupby pipeline
are exactly the maximal runs of consecutive observations with negative
drawdown; each episode's length is its observation count and its trough the
minimum drawdown inside the run; the reported `max_drawdown` is the minimum
drawdown over the whole window and `current_drawdown` the drawdown at the
last observation. -/
theorem drawdown_episode_segmentation (p : List ℚ) (hne : p ≠ []) :
    episodeBlocks (ddOf p) = negRuns (ddOf p)
    ∧ durations (ddOf p) = (negRuns (ddOf p)).map List.length
    ∧ troughs (ddOf p) = (negRuns (ddOf p)).map listMin
    ∧ (∀ b ∈ negRuns (ddOf p), b ≠ [] ∧ (∀ y ∈ b, y < 0) ∧ listMin b ∈ b ∧ ∀ y ∈ b, listMin b ≤ y)
    ∧ (negRuns (ddOf p)).flatten = (ddOf p).filter (fun y => decide (y < 0))
    ∧ (drawdownMetrics p).max_drawdown = listMin (ddOf p)
    ∧ listMin (ddOf p) ∈ ddOf p
    ∧ (∀ y ∈ ddOf p, listMin (ddOf p) ≤ y)
    ∧ (∃ c, (ddOf p).getLast? = some c ∧ (drawdownMetrics p).current_drawdown = c)
    ∧ (drawdownMetrics p).num_drawdown_episodes = (negRuns (ddOf p)).length := by
  have hblocks : episodeBlocks (ddOf p) = negRuns (ddOf p) := by
    rw [episodeBlocks, keptRows_eq]
    exact groupKept_eq_negRuns (ddOf p).length (ddOf p) (le_refl _) false 0
  have hdd_ne : ddOf p ≠ [] := by
    intro h
    apply hne
    have := ddOf_length p
    rw [h] at this
    exact List.length_eq_zero.mp this.symm
  refine ⟨hblocks, ?_, ?_, ?_, ?_, rfl, listMin_mem _ hdd_ne, listMin_le _, ?_, ?_⟩
  · rw [durations, hblocks]
  · rw [troughs, hblocks]
  · intro b hb
    have hfacts := negRuns_blocks (ddOf p).length (ddOf p) (le_refl _) b hb
    exact ⟨hfacts.1, hfacts.2, listMin_mem b hfacts.1, listMin_le b⟩
  · exact negRuns_flatten (ddOf p).length (ddOf p) (le_refl _)
  · refine ⟨(ddOf p).getLast hdd_ne, List.getLast?_eq_getLast _ hdd_ne, ?_⟩
    show ((ddOf p).getLast?).getD 0 = (ddOf p).getLast hdd_ne
    rw [List.getLast?_eq_getLast _ hdd_ne]
    rfl
  · show (durations (ddOf p)).length = (negRuns (ddOf p)).length
    rw [durations, hblocks, List.length_map]

/-- Witness for C3 on a concrete series with two drawdown episodes. -/
theorem drawdown_episode_segmentation_witness :
    ([(2 : ℚ), 1, 2, 1, 1] ≠ ([] : List ℚ))
    ∧ episodeBlocks (ddOf [(2 : ℚ), 1, 2, 1, 1]) = negRuns (ddOf [(2 : ℚ), 1, 2, 1, 1])
    ∧ (drawdownMetrics [(2 : ℚ), 1, 2, 1, 1]).max_drawdown = listMin (ddOf [(2 : ℚ), 1, 2, 1, 1]) := by
  have hne : [(2 : ℚ), 1, 2, 1, 1] ≠ ([] : List ℚ) := by simp
  have h := drawdown_episode_segmentation [(2 : ℚ), 1, 2, 1, 1] hne
  exact ⟨hne, h.1, h.2.2.2.2.2.1⟩

/-- C10: when no observation is in drawdown, the metrics report a
zero-episode result: zero count, zero average and maximum length, zero worst
trough and zero maximum drawdown — plain zeros, not a failure. -/
theorem drawdown_zero_episode_result (p : List ℚ) (h5 : 5 ≤ p.length)
    (hpos : ∀ x ∈ p, 0 < x) (hnoneg : ∀ y ∈ ddOf p, ¬ y < 0) :
    (drawdownMetrics p).num_drawdown_episodes = 0
    ∧ (drawdownMetrics p).avg_drawdown_length_trading_days = 0
    ∧ (drawdownMetrics p).max_drawdown_length_trading_days = 0
    ∧ (drawdownMetrics p).worst_episode_trough = 0
    ∧ (drawdownMetrics p).max_drawdown = 0 := by
  have hne : p ≠ [] := by
    intro h
    rw [h] at h5
    simp at h5
  have hdd_ne : ddOf p ≠ [] := by
    intro h
    apply hne
    have := ddOf_length p
    rw [h] at this
    exact List.length_eq_zero.mp this.symm
  have hblocks : episodeBlocks (ddOf p) = negRuns (ddOf p) := by
    rw [episodeBlocks, keptRows_eq]
    exact groupKept_eq_negRuns (ddOf p).length (ddOf p) (le_refl _) false 0
  have hnr : negRuns (ddOf p) = [] := negRuns_nil_of_nonneg _ hnoneg
  have hdur : durations (ddOf p) = [] := by
    rw [durations, hblocks, hnr]
    rfl
  have htr : troughs (ddOf p) = [] := by
    rw [troughs, hblocks, hnr]
    rfl
  have hzero : ∀ y ∈ ddOf p, y = 0 := by
    intro y hy
    have h1 := ddOf_mem_le_zero p hpos y hy
    have h2 := hnoneg y hy
    linarith
  have hmin : listMin (ddOf p) = 0 := hzero _ (listMin_mem _ hdd_ne)
  refine ⟨?_, ?_, ?_, ?_, hmin⟩
  · show (durations (ddOf p)).length = 0
    rw [hdur]
    rfl
  · show (if durations (ddOf p) = [] then 0 else _) = (0 : ℚ)
    rw [if_pos hdur]
  · show (if durations (ddOf p) = [] then 0 else _) = 0
    rw [if_pos hdur]
  · show (if troughs (ddOf p) = [] then 0 else _) = (0 : ℚ)
    rw [if_pos htr]

/-- Witness for C10 on a monotone price series. -/
theorem drawdown_zero_episode_result_witness :
    5 ≤ ([(1 : ℚ), 2, 3, 4, 5]).length
    ∧ (drawdownMetrics [(1 : ℚ), 2, 3, 4, 5]).num_drawdown_episodes = 0
    ∧ (drawdownMetrics [(1 : ℚ), 2, 3, 4, 5]).max_drawdown = 0 := by
  have h5 : 5 ≤ ([(1 : ℚ), 2, 3, 4, 5]).length := by simp
  have hpos : ∀ x ∈ [(1 : ℚ), 2, 3, 4, 5], 0 < x := by norm_num
  have hdd : ddOf [(1 : ℚ), 2, 3, 4, 5] = [0, 0, 0, 0, 0] := by
    norm_num [ddOf, cummax, cummaxAux, max_def]
  have hnoneg : ∀ y ∈ ddOf [(1 : ℚ), 2, 3, 4, 5], ¬ y < 0 := by
    rw [hdd]
    intro y hy
    simp at hy
    rw [hy]
    norm_num
  have h := drawdown_zero_episode_result [(1 : ℚ), 2, 3, 4, 5] h5 hpos hnoneg
  exact ⟨h5, h.1, h.2.2.2.2⟩

/-! ## Lemmas on argmin/argmax folds and the worst-episode path -/

theorem foldl_argmin_mem (xs : List (Date × ℚ)) :
    ∀ a : Date × ℚ,
      xs.foldl (fun b y => if y.2 < b.2 then y else b) a = a ∨
        xs.foldl (fun b y => if y.2 < b.2 then y else b) a ∈ xs := by
  induction xs with
  | nil => intro a; simp
  | cons y ys ih =>
    intro a
    simp only [List.foldl_cons, List.mem_cons]
    rcases ih (if y.2 < a.2 then y else a) with h | h
    · rw [h]
      by_cases hc : y.2 < a.2
      · rw [if_pos hc]; exact Or.inr (Or.inl rfl)
      · rw [if_neg hc]; exact Or.inl rfl
    · exact Or.inr (Or.inr h)

theorem foldl_argmin_le (xs : List (Date × ℚ)) :
    ∀ a : Date × ℚ,
      (xs.foldl (fun b y => if y.2 < b.2 then y else b) a).2 ≤ a.2 ∧
        ∀ y ∈ xs, (xs.foldl (fun b y => if y.2 < b.2 then y else b) a).2 ≤ y.2 := by
  induction xs with
  | nil => intro a; simp
  | cons y ys ih =>
    intro a
    simp only [List.foldl_cons, List.mem_cons]
    obtain ⟨h1, h2⟩ := ih (if y.2 < a.2 then y else a)
    have ha : (if y.2 < a.2 then y else a).2 ≤ a.2 := by
      by_cases hc : y.2 < a.2
      · rw [if_pos hc]; exact le_of_lt hc
      · rw [if_neg hc]
    have hy : (if y.2 < a.2 then y else a).2 ≤ y.2 := by
      by_cases hc : y.2 < a.2
      · rw [if_pos hc]
      · rw [if_neg hc]; exact le_of_not_lt hc
    refine ⟨h1.trans ha, ?_⟩
    intro z hz
    rcases hz with rfl | hz
    · exact h1.trans hy
    · exact h2 z hz

theorem argminPair_spec (l : List (Date × ℚ)) (h : l ≠ []) :
    ∃ t, argminPair l = some t ∧ t ∈ l ∧ ∀ y ∈ l, t.2 ≤ y.2 := by
  cases l with
  | nil => exact absurd rfl h
  | cons x xs =>
    refine ⟨_, rfl, ?_, ?_⟩
    · rcases foldl_argmin_mem xs x with he | he
      · rw [he]; exact List.mem_cons_self _ _
      · exact List.mem_cons_of_mem _ he
    · intro y hy
      obtain ⟨h1, h2⟩ := foldl_argmin_le xs x
      rcases List.mem_cons.mp hy with rfl | hy
      · exact h1
      · exact h2 y hy

theorem foldl_argmax_mem (xs : List (Date × ℚ)) :
    ∀ a : Date × ℚ,
      xs.foldl (fun b y => if b.2 < y.2 then y else b) a = a ∨
        xs.foldl (fun b y => if b.2 < y.2 then y else b) a ∈ xs := by
  induction xs with
  | nil => intro a; simp
  | cons y ys ih =>
    intro a
    simp only [List.foldl_cons, List.mem_cons]
    rcases ih (if a.2 < y.2 then y else a) with h | h
    · rw [h]
      by_cases hc : a.2 < y.2
      · rw [if_pos hc]; exact Or.inr (Or.inl rfl)
      · rw [if_neg hc]; exact Or.inl rfl
    · exact Or.inr (Or.inr h)

theorem foldl_argmax_ge (xs : List (Date × ℚ)) :
    ∀ a : Date × ℚ,
      a.2 ≤ (xs.foldl (fun b y => if b.2 < y.2 then y else b) a).2 ∧
        ∀ y ∈ xs, y.2 ≤ (xs.foldl (fun b y => if b.2 < y.2 then y else b) a).2 := by
  induction xs with
  | nil => intro a; simp
  | cons y ys ih =>
    intro a
    simp only [List.foldl_cons, List.mem_cons]
    obtain ⟨h1, h2⟩ := ih (if a.2 < y.2 then y else a)
    have ha : a.2 ≤ (if a.2 < y.2 then y else a).2 := by
      by_cases hc : a.2 < y.2
      · rw [if_pos hc]; exact le_of_lt hc
      · rw [if_neg hc]
    have hy : y.2 ≤ (if a.2 < y.2 then y else a).2 := by
      by_cases hc : a.2 < y.2
      · rw [if_pos hc]
      · rw [if_neg hc]; exact le_of_not_lt hc
    refine ⟨ha.trans h1, ?_⟩
    intro z hz
    rcases hz with rfl | hz
    · exact hy.trans h1
    · exact h2 z hz

theorem argmaxPair_spec (l : List (Date × ℚ)) (h : l ≠ []) :
    ∃ t, argmaxPair l = some t ∧ t ∈ l ∧ ∀ y ∈ l, y.2 ≤ t.2 := by
  cases l with
  | nil => exact absurd rfl h
  | cons x xs =>
    refine ⟨_, rfl, ?_, ?_⟩
    · rcases foldl_argmax_mem xs x with he | he
      · rw [he]; exact List.mem_cons_self _ _
      · exact List.mem_cons_of_mem _ he
    · intro y hy
      obtain ⟨h1, h2⟩ := foldl_argmax_ge xs x
      rcases List.mem_cons.mp hy with rfl | hy
      · exact h1
      · exact h2 y hy

theorem sorted_head?_min {α : Type} (s : Series α) (hs : SortedDates s)
    {x : Date × α} (hx : s.head? = some x) : ∀ y ∈ s, x.1 ≤ y.1 := by
  cases s with
  | nil => simp at hx
  | cons a as =>
    simp only [List.head?_cons, Option.some.injEq] at hx
    subst hx
    intro y hy
    rcases List.mem_cons.mp hy with rfl | hy
    · exact le_refl _
    · exact le_of_lt ((List.pairwise_cons.mp hs).1 y hy)

theorem ddPairs_length (s : Series ℚ) : (ddPairs s).length = s.length := by
  simp [ddPairs, ddOf_length]

theorem ddPairs_fst_mem (s : Series ℚ) {t : Date × ℚ} (ht : t ∈ ddPairs s) :
    ∃ pr, (t.1, pr) ∈ s := by
  have h1 : t.1 ∈ s.map Prod.fst := (List.of_mem_zip ht).1
  rcases List.mem_map.mp h1 with ⟨x, hx, hfst⟩
  refine ⟨x.2, ?_⟩
  rw [← hfst]
  simpa using hx

/-- C4: the worst-episode path reports the trough as the date of minimum
drawdown, the peak as the date of the maximum price at or before the trough,
and the recovery as the first date at or after the trough whose price is at
least the peak price, or absent when no such date exists in the window. -/
theorem max_drawdown_path_correct (s : Series ℚ) (hs : SortedDates s)
    (h5 : 5 ≤ s.length) :
    ∃ path : DrawdownPathR, maxDrawdownPath s = some path
      ∧ (path.trough_date, path.max_drawdown) ∈ ddPairs s
      ∧ (∀ y ∈ ddPairs s, path.max_drawdown ≤ y.2)
      ∧ path.peak_date ≤ path.trough_date
      ∧ (∃ pp : ℚ, (path.peak_date, pp) ∈ s
          ∧ (∀ x ∈ s, x.1 ≤ path.trough_date → x.2 ≤ pp)
          ∧ (∀ r, path.recovery_date = some r →
              ∃ pr, (r, pr) ∈ s ∧ path.trough_date ≤ r ∧ pp ≤ pr
                ∧ ∀ x ∈ s, path.trough_date ≤ x.1 → pp ≤ x.2 → r ≤ x.1)
          ∧ (path.recovery_date = none →
              ∀ x ∈ s, path.trough_date ≤ x.1 → x.2 < pp)) := by
  have hdd_ne : ddPairs s ≠ [] := by
    intro h
    have hlen := ddPairs_length s
    rw [h] at hlen
    simp at hlen
    omega
  obtain ⟨t, hargmin, htmem, htle⟩ := argminPair_spec (ddPairs s) hdd_ne
  obtain ⟨troughDt, troughDD⟩ := t
  obtain ⟨pr0, hpr0⟩ := ddPairs_fst_mem s htmem
  have hpre_ne : s.filter (fun x => decide (x.1 ≤ troughDt)) ≠ [] := by
    intro h
    have : (troughDt, pr0) ∈ s.filter (fun x => decide (x.1 ≤ troughDt)) :=
      List.mem_filter.mpr ⟨hpr0, by simp⟩
    rw [h] at this
    simp at this
  obtain ⟨pk, hargmax, hpkmem, hpkge⟩ := argmaxPair_spec _ hpre_ne
  obtain ⟨peakDt, peakPrice⟩ := pk
  have hpath : maxDrawdownPath s = some
      { peak_date := peakDt, trough_date := troughDt,
        recovery_date := (((s.filter (fun x => decide (troughDt ≤ x.1))).filter
          (fun x => decide (peakPrice ≤ x.2))).head?).map Prod.fst,
        max_drawdown := troughDD } := by
    simp only [maxDrawdownPath, hargmin, hargmax]
  refine ⟨_, hpath, htmem, fun y hy => htle y hy, ?_, peakPrice, ?_, ?_, ?_, ?_⟩
  · have := (List.mem_filter.mp hpkmem).2
    simpa using this
  · exact (List.mem_filter.mp hpkmem).1
  · intro x hx hxle
    exact hpkge x (List.mem_filter.mpr ⟨hx, by simpa using hxle⟩)
  · intro r hr
    simp only [Option.map_eq_some'] at hr
    obtain ⟨rr, hrr_head, hrfst⟩ := hr
    have hrr_mem : rr ∈ (s.filter (fun x => decide (troughDt ≤ x.1))).filter
        (fun x => decide (peakPrice ≤ x.2)) := by
      cases hcase : ((s.filter (fun x => decide (troughDt ≤ x.1))).filter
          (fun x => decide (peakPrice ≤ x.2))) with
      | nil => rw [hcase] at hrr_head; simp at hrr_head
      | cons a as =>
        rw [hcase] at hrr_head
        simp only [List.head?_cons, Option.some.injEq] at hrr_head
        rw [← hrr_head]
        simp
    have hrr_s : rr ∈ s := (List.mem_filter.mp (List.mem_filter.mp hrr_mem).1).1
    have hrr_tr : troughDt ≤ rr.1 := by
      have := (List.mem_filter.mp (List.mem_filter.mp hrr_mem).1).2
      simpa using this
    have hrr_pk : peakPrice ≤ rr.2 := by
      have := (List.mem_filter.mp hrr_mem).2
      simpa using this
    refine ⟨rr.2, by rw [← hrfst]; exact hrr_s, by rw [← hrfst]; exact hrr_tr,
      hrr_pk, ?_⟩
    intro x hx hxtr hxpk
    have hx_mem : x ∈ (s.filter (fun x => decide (troughDt ≤ x.1))).filter
        (fun x => decide (peakPrice ≤ x.2)) :=
      List.mem_filter.mpr ⟨List.mem_filter.mpr ⟨hx, by simpa using hxtr⟩,
        by simpa using hxpk⟩
    have hsorted : SortedDates ((s.filter (fun x => decide (troughDt ≤ x.1))).filter
        (fun x => decide (peakPrice ≤ x.2))) :=
      List.Pairwise.filter _ (List.Pairwise.filter _ hs)
    have := sorted_head?_min _ hsorted hrr_head x hx_mem
    rw [← hrfst]
    exact this
  · intro hnone x hx hxtr
    simp only [Option.map_eq_none'] at hnone
    by_contra hge
    push_neg at hge
    have hx_mem : x ∈ (s.filter (fun x => decide (troughDt ≤ x.1))).filter
        (fun x => decide (peakPrice ≤ x.2)) :=
      List.mem_filter.mpr ⟨List.mem_filter.mpr ⟨hx, by simpa using hxtr⟩,
        by simpa using hge⟩
    cases hcase : ((s.filter (fun x => decide (troughDt ≤ x.1))).filter
        (fun x => decide (peakPrice ≤ x.2))) with
    | nil => rw [hcase] at hx_mem; simp at hx_mem
    | cons a as => rw [hcase] at hnone; simp at hnone

/-- Witness for C4 on a concrete series: trough at date 1, peak at date 0,
recovery at date 3. -/
theorem max_drawdown_path_correct_witness :
    SortedDates [((0 : Date), (10 : ℚ)), (1, 8), (2, 9), (3, 12), (4, 11)]
    ∧ 5 ≤ ([((0 : Date), (10 : ℚ)), (1, 8), (2, 9), (3, 12), (4, 11)]).length
    ∧ ∃ path, maxDrawdownPath [((0 : Date), (10 : ℚ)), (1, 8), (2, 9), (3, 12), (4, 11)] = some path
        ∧ (path.trough_date, path.max_drawdown) ∈
            ddPairs [((0 : Date), (10 : ℚ)), (1, 8), (2, 9), (3, 12), (4, 11)] := by
  have hs : SortedDates [((0 : Date), (10 : ℚ)), (1, 8), (2, 9), (3, 12), (4, 11)] := by
    unfold SortedDates
    decide
  have h5 : 5 ≤ ([((0 : Date), (10 : ℚ)), (1, 8), (2, 9), (3, 12), (4, 11)]).length := by
    simp
  obtain ⟨path, h1, h2, _⟩ := max_drawdown_path_correct _ hs h5
  exact ⟨hs, h5, path, h1, h2⟩

/-! ## Cumulative returns: C5 -/

theorem sorted_filter_ge_head {α : Type} (s : Series α) (hs : SortedDates s)
    (u : Date) (b : α) (hmem : (u, b) ∈ s) :
    (s.filter (fun x => u ≤ x.1)).head? = some (u, b) := by
  induction s with
  | nil => simp at hmem
  | cons a as ih =>
    rcases List.pairwise_cons.mp hs with ⟨ha, has⟩
    rcases List.mem_cons.mp hmem with rfl | hmem'
    · rw [List.filter_cons]
      simp
    · have hau : a.1 < u := by
        have := ha (u, b) hmem'
        simpa using this
      rw [List.filter_cons]
      have hnle : ¬ (u ≤ a.1) := not_le.mpr hau
      simp only [hnle, decide_False, Bool.false_eq_true, if_false]
      exact ih has hmem'

/-- C5: for every valid start anchor, each retained observation of the
cumulative-return series carries `price / base_price - 1` (decimal), the
value at the start anchor date is exactly 0, and the computation fails when
no base anchor exists. -/
theorem cumulative_returns_correct (s : Series ℚ) (hs : SortedDates s)
    (hpos : ∀ x ∈ s, 0 < x.2) (startTs endTs : Date) :
    (∀ u b pts, cumulativeReturnsSeriesFromPrices s startTs endTs = .ok (u, b, pts) →
        pts.head? = some (u, 0)
        ∧ (u, b) ∈ s ∧ 0 < b ∧ u ≤ startTs
        ∧ (∀ d v, (d, v) ∈ pts → ∃ pr, (d, pr) ∈ s ∧ d ≤ endTs ∧ u ≤ d ∧ v = pr / b - 1)
        ∧ (∀ x ∈ s, x.1 ≤ endTs → u ≤ x.1 → (x.1, x.2 / b - 1) ∈ pts))
    ∧ (nearestPrev (s.filter (fun x => x.1 ≤ endTs)) startTs = none →
        cumulativeReturnsSeriesFromPrices s startTs endTs =
          .error "No price data on or before start_date") := by
  constructor
  · intro u b pts hok
    simp only [cumulativeReturnsSeriesFromPrices] at hok
    cases hnp : nearestPrev (s.filter (fun x => x.1 ≤ endTs)) startTs with
    | none => rw [hnp] at hok; exact absurd hok (by simp)
    | some bp =>
      obtain ⟨b0, u0⟩ := bp
      rw [hnp] at hok
      simp only at hok
      by_cases hemp : ((s.filter (fun x => x.1 ≤ endTs)).filter (fun x => u0 ≤ x.1)).isEmpty
      · rw [if_pos hemp] at hok
        exact absurd hok (by simp)
      · rw [if_neg hemp] at hok
        simp only [Except.ok.injEq, Prod.mk.injEq] at hok
        obtain ⟨h1, h2, h3⟩ := hok
        rw [← h1, ← h2, ← h3]
        have hs1 : SortedDates (s.filter (fun x => x.1 ≤ endTs)) :=
          List.Pairwise.filter _ hs
        obtain ⟨hle, hmem1, _⟩ := nearestPrev_spec hs1 hnp
        have hmem_s : (u0, b0) ∈ s := (List.mem_filter.mp hmem1).1
        have hb_pos : 0 < b0 := hpos (u0, b0) hmem_s
        have hhead : ((s.filter (fun x => x.1 ≤ endTs)).filter
            (fun x => u0 ≤ x.1)).head? = some (u0, b0) :=
          sorted_filter_ge_head _ hs1 u0 b0 hmem1
        refine ⟨?_, hmem_s, hb_pos, hle, ?_, ?_⟩
        · rw [List.head?_map, hhead]
          simp only [Option.map, Prod.mk.injEq]
          rw [div_self (ne_of_gt hb_pos)]
          norm_num
        · intro d v hdv
          rcases List.mem_map.mp hdv with ⟨x, hx, hxe⟩
          have hx1 : x.1 = d := congrArg Prod.fst hxe
          have hx2 : x.2 / b0 - 1 = v := congrArg Prod.snd hxe
          have hx_in1 : x ∈ s.filter (fun x => x.1 ≤ endTs) := (List.mem_filter.mp hx).1
          have hx_s : x ∈ s := (List.mem_filter.mp hx_in1).1
          have hx_end : x.1 ≤ endTs := by
            have := (List.mem_filter.mp hx_in1).2
            simpa using this
          have hx_u : u0 ≤ x.1 := by
            have := (List.mem_filter.mp hx).2
            simpa using this
          refine ⟨x.2, ?_, ?_, ?_, ?_⟩
          · rw [← hx1]; simpa using hx_s
          · rw [← hx1]; exact hx_end
          · rw [← hx1]; exact hx_u
          · rw [← hx2]
        · intro x hx hxe hxu
          apply List.mem_map.mpr
          refine ⟨x, ?_, by simp⟩
          exact List.mem_filter.mpr ⟨List.mem_filter.mpr ⟨hx, by simpa using hxe⟩,
            by simpa using hxu⟩
  · intro hnone
    simp only [cumulativeReturnsSeriesFromPrices]
    rw [hnone]

/-- Witness for C5: base at date 1 with price 4; the series starts at 0. -/
theorem cumulative_returns_correct_witness :
    SortedDates [((1 : Date), (4 : ℚ)), (3, 6), (5, 8)]
    ∧ ∀ u b pts,
        cumulativeReturnsSeriesFromPrices [((1 : Date), (4 : ℚ)), (3, 6), (5, 8)] 2 5 =
          .ok (u, b, pts) →
        pts.head? = some (u, 0) := by
  have hs : SortedDates [((1 : Date), (4 : ℚ)), (3, 6), (5, 8)] := by
    unfold SortedDates; decide
  have hpos : ∀ x ∈ [((1 : Date), (4 : ℚ)), (3, 6), (5, 8)], 0 < x.2 := by norm_num
  refine ⟨hs, fun u b pts hok => ?_⟩
  exact ((cumulative_returns_correct _ hs hpos 2 5).1 u b pts hok).1

/-! ## Performance windows: C7 -/

/-- C7: every non-YTD window's target date is the last anchor's date minus
the window's fixed day-count, YTD's target is January 1 of the anchor's
year, and a window's value is null exactly when its past anchor is absent or
its price is exactly 0 — otherwise `(last / past - 1) * 100`. -/
theorem perf_window_correct :
    (∀ (lastDate : Date) (w : Period), w ≠ .pYTD →
        targetDate lastDate w = lastDate - specDayCount w)
    ∧ (∀ lastDate : Date, targetDate lastDate .pYTD = daysFromCivil (yearOf lastDate) 1 1)
    ∧ (∀ (close : Series ℚ) (lastPrice : ℚ) (lastDate : Date) (w : Period),
        (perfWindow close lastPrice lastDate w = none ↔
          nearestPrev close (targetDate lastDate w) = none ∨
            ∃ d, nearestPrev close (targetDate lastDate w) = some (0, d))
        ∧ (∀ p d, nearestPrev close (targetDate lastDate w) = some (p, d) → p ≠ 0 →
            perfWindow close lastPrice lastDate w = some ((lastPrice / p - 1) * 100))) := by
  refine ⟨?_, fun lastDate => rfl, ?_⟩
  · intro lastDate w hw
    cases w with
    | pYTD => exact absurd rfl hw
    | p1D => rfl
    | p1W => rfl
    | p1M => rfl
    | p1Y => rfl
    | p3Y => rfl
    | p5Y => rfl
  · intro close lastPrice lastDate w
    constructor
    · unfold perfWindow
      cases hnp : nearestPrev close (targetDate lastDate w) with
      | none => simp
      | some pd =>
        obtain ⟨p, d⟩ := pd
        by_cases hp : p = 0
        · subst hp
          simp
        · simp only [hp, if_false]
          constructor
          · intro h; exact absurd h (by simp)
          · rintro (h | ⟨d', h⟩)
            · exact absurd h (by simp)
            · simp only [Option.some.injEq, Prod.mk.injEq] at h
              exact absurd h.1 hp
    · intro p d hnp hp
      unfold perfWindow
      rw [hnp]
      simp [hp]

/-- Witness for C7: YTD from 2024-06-15 targets 2024-01-01; a 1Y window is a
365-day offset; a concrete window value evaluates. -/
theorem perf_window_correct_witness :
    targetDate (daysFromCivil 2024 6 15) Period.pYTD = daysFromCivil 2024 1 1
    ∧ (Period.p1Y ≠ Period.pYTD
        ∧ targetDate 1000 Period.p1Y = 1000 - specDayCount Period.p1Y)
    ∧ ((2 : ℚ) ≠ 0
        ∧ perfWindow [((0 : Date), (2 : ℚ))] 3 5 Period.p1D = some ((3 / 2 - 1) * 100)) := by
  refine ⟨?_, ⟨by decide, perf_window_correct.1 1000 Period.p1Y (by decide)⟩, ?_⟩
  · have h := perf_window_correct.2.1 (daysFromCivil 2024 6 15)
    rw [h]
    decide
  · have h2 : (2 : ℚ) ≠ 0 := by norm_num
    refine ⟨h2, ?_⟩
    apply (perf_window_correct.2.2 [((0 : Date), (2 : ℚ))] 3 5 Period.p1D).2 2 0 ?_ h2
    rfl

/-! ## Annualized volatility: C6 -/

theorem periodReturns_length (mode : ReturnMode) (w : List ℝ) :
    (periodReturns mode w).length = w.length - 1 := by
  cases mode <;> cases w <;> simp [periodReturns]

/-- C6: on success the volatility is the sample standard deviation (ddof 1)
of the period returns of the anchored window, the annualized volatility is
that times the square root of the annualization factor (252 / 52 / 12 for
daily / weekly / monthly), at least 2 returns were available, and with a
window of fewer than 3 prices (fewer than 2 returns) the computation fails
as insufficient-data. -/
theorem annualized_volatility_correct :
    (annualization .daily = 252 ∧ annualization .weekly = 52 ∧ annualization .monthly = 12)
    ∧ (∀ (prices : Series ℝ) (startTs endTs : Date) (freq : VolFrequency)
          (mode : ReturnMode) (r : VolResult),
        computeVols prices startTs endTs freq mode = .ok r →
          r.volatility_period = sampleStd (periodReturns mode ((prices.filter
              (fun x => decide (r.start_used ≤ x.1 ∧ x.1 ≤ r.end_used))).map Prod.snd))
          ∧ r.annualized_volatility = r.volatility_period * Real.sqrt (annualization freq)
          ∧ r.observations = (periodReturns mode ((prices.filter
              (fun x => decide (r.start_used ≤ x.1 ∧ x.1 ≤ r.end_used))).map Prod.snd)).length
          ∧ 2 ≤ r.observations)
    ∧ (∀ (prices : Series ℝ) (startTs endTs : Date) (freq : VolFrequency)
          (mode : ReturnMode) (p1 p2 : ℝ) (u1 u2 : Date),
        nearestPrev prices startTs = some (p1, u1) →
        nearestPrev prices endTs = some (p2, u2) →
        ((prices.filter (fun x => decide (u1 ≤ x.1 ∧ x.1 ≤ u2))).map Prod.snd).length < 3 →
        computeVols prices startTs endTs freq mode =
          .error "Not enough price points in window") := by
  refine ⟨⟨rfl, rfl, rfl⟩, ?_, ?_⟩
  · intro prices startTs endTs freq mode r h
    simp only [computeVols] at h
    cases hnp1 : nearestPrev prices startTs with
    | none => rw [hnp1] at h; exact absurd h (by simp)
    | some su =>
      obtain ⟨p1, u1⟩ := su
      rw [hnp1] at h
      cases hnp2 : nearestPrev prices endTs with
      | none => rw [hnp2] at h; exact absurd h (by simp)
      | some eu =>
        obtain ⟨p2, u2⟩ := eu
        rw [hnp2] at h
        simp only at h
        by_cases h3 : ((prices.filter (fun x => decide (u1 ≤ x.1 ∧ x.1 ≤ u2))).map
            Prod.snd).length < 3
        · rw [if_pos h3] at h
          exact absurd h (by simp)
        · rw [if_neg h3] at h
          by_cases h2 : (periodReturns mode ((prices.filter
              (fun x => decide (u1 ≤ x.1 ∧ x.1 ≤ u2))).map Prod.snd)).length < 2
          · rw [if_pos h2] at h
            exact absurd h (by simp)
          · rw [if_neg h2] at h
            simp only [Except.ok.injEq] at h
            subst h
            exact ⟨rfl, rfl, rfl, Nat.not_lt.mp h2⟩
  · intro prices startTs endTs freq mode p1 p2 u1 u2 hnp1 hnp2 h3
    simp only [computeVols]
    rw [hnp1, hnp2]
    simp only
    rw [if_pos h3]

/-- Witness for C6: four daily prices whose arithmetic returns are
0, 1%, 2% — sample standard deviation exactly 0.01 — annualize to
`0.01 * sqrt 252`. -/
theorem annualized_volatility_correct_witness :
    ∃ r : VolResult,
      computeVols [((0 : Date), (1 : ℝ)), (1, 1), (2, 101 / 100), (3, 10302 / 10000)]
          0 3 .daily .arith = .ok r
      ∧ r.volatility_period = 1 / 100
      ∧ r.annualized_volatility = (1 / 100) * Real.sqrt 252 := by
  set c : Series ℝ := [((0 : Date), (1 : ℝ)), (1, 1), (2, 101 / 100), (3, 10302 / 10000)]
    with hc
  have hok : ∃ r, computeVols c 0 3 .daily .arith = .ok r := by
    simp only [computeVols, hc]
    norm_num [nearestPrev, periodReturns]
  obtain ⟨r, hr⟩ := hok
  have hfacts := annualized_volatility_correct.2.1 c 0 3 .daily .arith r hr
  obtain ⟨hvol, hann, _, _⟩ := hfacts
  have hsu : r.start_used = 0 ∧ r.end_used = 3 := by
    have hr2 := hr
    simp only [computeVols, hc] at hr2
    norm_num [nearestPrev] at hr2
    have hlen : (periodReturns ReturnMode.arith
        [(1 : ℝ), 1, 101 / 100, 5151 / 5000]).length = 3 := by
      rw [periodReturns_length]
      simp
    rw [if_neg (by omega)] at hr2
    injection hr2 with hr2
    rw [← hr2]
    exact ⟨rfl, rfl⟩
  have hwindow : (c.filter (fun x => decide (r.start_used ≤ x.1 ∧ x.1 ≤ r.end_used))).map
      Prod.snd = [(1 : ℝ), 1, 101 / 100, 10302 / 10000] := by
    rw [hsu.1, hsu.2, hc]
    norm_num
  have hrets : periodReturns .arith [(1 : ℝ), 1, 101 / 100, 10302 / 10000] =
      [0, 1 / 100, 1 / 50] := by
    simp only [periodReturns, List.tail_cons, List.zipWith_cons_cons, List.zipWith_nil_right]
    norm_num
  have hstd : sampleStd [(0 : ℝ), 1 / 100, 1 / 50] = 1 / 100 := by
    unfold sampleStd
    rw [show ((([(0 : ℝ), 1 / 100, 1 / 50]).map
        (fun x => (x - ([(0 : ℝ), 1 / 100, 1 / 50]).sum /
          ((([(0 : ℝ), 1 / 100, 1 / 50]).length : ℕ) : ℝ)) ^ 2)).sum /
            (((([(0 : ℝ), 1 / 100, 1 / 50]).length : ℕ) : ℝ) - 1)) = ((1 : ℝ) / 100) ^ 2
      from by norm_num]
    exact Real.sqrt_sq (by norm_num)
  have hvol' : r.volatility_period = 1 / 100 := by
    rw [hvol, hwindow, hrets, hstd]
  refine ⟨r, hr, hvol', ?_⟩
  rw [hann, hvol']
  rfl

/-! ## Batch loops: C8 -/

theorem runBatch_spec {β : Type} (f : String → Except String β) (tickers : List String) :
    (runBatch f tickers).1 = tickers.filterMap (fun t => (f t).toOption)
    ∧ (runBatch f tickers).2 = tickers.filterMap (errEntry f) := by
  suffices h : ∀ (ts : List String) (acc : List β × List (String × String)),
      (ts.foldl (batchStep f) acc).1 = acc.1 ++ ts.filterMap (fun t => (f t).toOption)
      ∧ (ts.foldl (batchStep f) acc).2 = acc.2 ++ ts.filterMap (errEntry f) by
    have := h tickers ([], [])
    simpa [runBatch] using this
  intro ts
  induction ts with
  | nil => intro acc; simp
  | cons t ts ih =>
    intro acc
    simp only [List.foldl_cons, List.filterMap_cons]
    obtain ⟨h1, h2⟩ := ih (batchStep f acc t)
    cases hft : f t with
    | ok row =>
      rw [h1, h2]
      simp [batchStep, errEntry, hft, Except.toOption]
    | error e =>
      rw [h1, h2]
      simp [batchStep, errEntry, hft, Except.toOption]

/-- C8: in the drawdown and cumulative-returns batch loops, a ticker missing
from the downloaded table or with too few observations contributes an entry
to the errors map keyed by that ticker; every successfully computed ticker's
row still appears in the data; and the loop is total — data and errors are
exactly the partition of the tickers by per-ticker outcome. -/
theorem batch_partial_failure (tickers : List String) (close : Table)
    (startTs endTs : Date) :
    ((runDrawdown tickers close).1 =
        tickers.filterMap (fun t => (runDrawdownTicker close t).toOption)
      ∧ (runDrawdown tickers close).2 =
          tickers.filterMap (errEntry (runDrawdownTicker close)))
    ∧ (∀ t ∈ tickers, lookupCol close t = none →
        (t, "Ticker not found in downloaded data") ∈ (runDrawdown tickers close).2)
    ∧ (∀ t ∈ tickers, ∀ s, lookupCol close t = some s → s.length < 5 →
        (t, "Not enough points in window") ∈ (runDrawdown tickers close).2)
    ∧ (∀ t ∈ tickers, ∀ row, runDrawdownTicker close t = .ok row →
        row ∈ (runDrawdown tickers close).1)
    ∧ ((runCumReturns tickers close startTs endTs).1 = tickers.filterMap
          (fun t => (runCumReturnsTicker close startTs endTs t).toOption)
      ∧ (runCumReturns tickers close startTs endTs).2 =
          tickers.filterMap (errEntry (runCumReturnsTicker close startTs endTs)))
    ∧ (∀ t ∈ tickers, lookupCol close t = none →
        (t, "Ticker not present in downloaded data") ∈
          (runCumReturns tickers close startTs endTs).2)
    ∧ (∀ t ∈ tickers, ∀ row, runCumReturnsTicker close startTs endTs t = .ok row →
        row ∈ (runCumReturns tickers close startTs endTs).1) := by
  have hdd : (runDrawdown tickers close).1 =
        tickers.filterMap (fun t => (runDrawdownTicker close t).toOption)
      ∧ (runDrawdown tickers close).2 =
          tickers.filterMap (errEntry (runDrawdownTicker close)) :=
    runBatch_spec (runDrawdownTicker close) tickers
  have hcr : (runCumReturns tickers close startTs endTs).1 = tickers.filterMap
          (fun t => (runCumReturnsTicker close startTs endTs t).toOption)
      ∧ (runCumReturns tickers close startTs endTs).2 =
          tickers.filterMap (errEntry (runCumReturnsTicker close startTs endTs)) :=
    runBatch_spec (runCumReturnsTicker close startTs endTs) tickers
  refine ⟨hdd, ?_, ?_, ?_, hcr, ?_, ?_⟩
  · intro t ht hnone
    rw [hdd.2]
    apply List.mem_filterMap.mpr
    refine ⟨t, ht, ?_⟩
    have : runDrawdownTicker close t = .error "Ticker not found in downloaded data" := by
      unfold runDrawdownTicker
      rw [hnone]
    unfold errEntry
    rw [this]
  · intro t ht s hsome hlen
    rw [hdd.2]
    apply List.mem_filterMap.mpr
    refine ⟨t, ht, ?_⟩
    have : runDrawdownTicker close t = .error "Not enough points in window" := by
      unfold runDrawdownTicker
      rw [hsome]
      simp [hlen]
    unfold errEntry
    rw [this]
  · intro t ht row hok
    rw [hdd.1]
    apply List.mem_filterMap.mpr
    refine ⟨t, ht, ?_⟩
    rw [hok]
    rfl
  · intro t ht hnone
    rw [hcr.2]
    apply List.mem_filterMap.mpr
    refine ⟨t, ht, ?_⟩
    have : runCumReturnsTicker close startTs endTs t =
        .error "Ticker not present in downloaded data" := by
      unfold runCumReturnsTicker
      rw [hnone]
    unfold errEntry
    rw [this]
  · intro t ht row hok
    rw [hcr.1]
    apply List.mem_filterMap.mpr
    refine ⟨t, ht, ?_⟩
    rw [hok]
    rfl

/-- Witness for C8: a two-ticker batch where the second ticker is absent
from the table lands in the errors map keyed by that ticker. -/
theorem batch_partial_failure_witness :
    ("BAD" ∈ ["AAPL", "BAD"])
    ∧ lookupCol [("AAPL", [((0 : Date), (1 : ℚ)), (1, 1), (2, 1), (3, 1), (4, 1)])] "BAD" = none
    ∧ ("BAD", "Ticker not found in downloaded data") ∈
        (runDrawdown ["AAPL", "BAD"]
          [("AAPL", [((0 : Date), (1 : ℚ)), (1, 1), (2, 1), (3, 1), (4, 1)])]).2 := by
  have hmem : "BAD" ∈ ["AAPL", "BAD"] := by simp
  have hnone : lookupCol
      [("AAPL", [((0 : Date), (1 : ℚ)), (1, 1), (2, 1), (3, 1), (4, 1)])] "BAD" = none := by
    rfl
  exact ⟨hmem, hnone,
    (batch_partial_failure ["AAPL", "BAD"]
      [("AAPL", [((0 : Date), (1 : ℚ)), (1, 1), (2, 1), (3, 1), (4, 1)])] 0 4).2.1
      "BAD" hmem hnone⟩

/-! ## Input validation: C9

The claim that invalid input is always rejected before any fetch and
surfaced at the batch level fails on the perf endpoint: `yahoo_perf_asof`
fetches first and parses `asof` only afterwards, and `_run_perf` catches the
resulting `ValueError` in its per-ticker loop, folding it into the errors
map.  The cumulative-returns runner, which parses and checks its dates
before the download, and the other date-validated batch runners do satisfy
the claim. -/

/-- Counterexample to C9: a malformed `asof` date on the perf endpoint is
folded into the per-ticker errors map (first conjunct), and with an empty
fetch the fetch error masks the parse error — showing the fetch is attempted
before the date is parsed (second conjunct). -/
theorem invalid_input_counterexample :
    (runPerf ["A"] (fun _ => some [((0 : Date), (1 : ℚ))]) (.malformed "bad date")).2
      = [("A", "bad date")]
    ∧ (runPerf ["A"] (fun _ => none) (.malformed "bad date")).2
      = [("A", "No data for ticker")] := by
  constructor <;> rfl

/-- C9 as amended: the cumulative-returns batch runner rejects malformed,
missing or inverted dates before the download — the result is a batch-level
error that does not depend on what the fetch would return — while the perf
runner turns a malformed as-of date into one entry of the per-ticker errors
map for every requested ticker, with an empty data list. -/
theorem invalid_input_validation (tickers : List String) (startRaw endRaw : RawDate)
    (f g : Unit → Table) (hinv : InvalidDates startRaw endRaw) :
    (runCumReturnsBatch tickers startRaw endRaw f =
        runCumReturnsBatch tickers startRaw endRaw g
      ∧ ∃ e, runCumReturnsBatch tickers startRaw endRaw f = .error e)
    ∧ (∀ (fetch : String → Option (Series ℚ)) (msg : String),
        (runPerf tickers fetch (.malformed msg)).1 = []
        ∧ ∀ t ∈ tickers, ∃ e, (t, e) ∈ (runPerf tickers fetch (.malformed msg)).2) := by
  constructor
  · rcases hinv with ⟨m, rfl⟩ | ⟨m, rfl⟩ | rfl | rfl | ⟨s, e, rfl, rfl, hlt⟩
    · exact ⟨rfl, m, rfl⟩
    · cases startRaw with
      | missing => exact ⟨rfl, m, rfl⟩
      | malformed m' => exact ⟨rfl, m', rfl⟩
      | valid d => exact ⟨rfl, m, rfl⟩
    · cases endRaw with
      | missing => exact ⟨rfl, "start_date and end_date must be valid dates (YYYY-MM-DD)", rfl⟩
      | malformed m' => exact ⟨rfl, m', rfl⟩
      | valid d =>
        exact ⟨rfl, "start_date and end_date must be valid dates (YYYY-MM-DD)", rfl⟩
    · cases startRaw with
      | missing => exact ⟨rfl, "start_date and end_date must be valid dates (YYYY-MM-DD)", rfl⟩
      | malformed m' => exact ⟨rfl, m', rfl⟩
      | valid d =>
        exact ⟨rfl, "start_date and end_date must be valid dates (YYYY-MM-DD)", rfl⟩
    · have hcond : e < s := hlt
      constructor
      · simp only [runCumReturnsBatch, convertToTimestamp]
        rw [if_pos hcond, if_pos hcond]
      · refine ⟨"end_date must be >= start_date", ?_⟩
        simp only [runCumReturnsBatch, convertToTimestamp]
        rw [if_pos hcond]
  · intro fetch msg
    have herr : ∀ t, ∃ e, (fun t => yahooPerfAsof t (fetch t) (.malformed msg)) t = .error e := by
      intro t
      show ∃ e, yahooPerfAsof t (fetch t) (.malformed msg) = .error e
      unfold yahooPerfAsof
      cases fetch t with
      | none => exact ⟨"No data for ticker", rfl⟩
      | some close =>
        by_cases hemp : close.isEmpty
        · refine ⟨"No data for ticker", ?_⟩
          simp [hemp]
        · refine ⟨msg, ?_⟩
          simp [hemp, convertToTimestamp]
    have hspec := runBatch_spec (fun t => yahooPerfAsof t (fetch t) (.malformed msg)) tickers
    constructor
    · rw [show (runPerf tickers fetch (.malformed msg)).1 =
          (runBatch (fun t => yahooPerfAsof t (fetch t) (.malformed msg)) tickers).1 from rfl]
      rw [hspec.1]
      apply List.filterMap_eq_nil_iff.mpr
      intro t _
      obtain ⟨e, he⟩ := herr t
      have he' : yahooPerfAsof t (fetch t) (RawDate.malformed msg) = Except.error e := he
      rw [he']
      rfl
    · intro t ht
      obtain ⟨e, he⟩ := herr t
      refine ⟨e, ?_⟩
      rw [show (runPerf tickers fetch (.malformed msg)).2 =
          (runBatch (fun t => yahooPerfAsof t (fetch t) (.malformed msg)) tickers).2 from rfl]
      rw [hspec.2]
      apply List.mem_filterMap.mpr
      refine ⟨t, ht, ?_⟩
      unfold errEntry
      rw [he]

/-- Witness for the amended C9 at a concrete inverted date range and a
concrete malformed as-of date. -/
theorem invalid_input_validation_witness :
    InvalidDates (.valid 5) (.valid 3)
    ∧ (∃ e, runCumReturnsBatch ["A"] (.valid 5) (.valid 3) (fun _ => []) = .error e)
    ∧ (runPerf ["A"] (fun _ => some [((0 : Date), (1 : ℚ))]) (.malformed "oops")).1 = [] := by
  have hinv : InvalidDates (.valid 5) (.valid 3) := by
    right; right; right; right
    exact ⟨5, 3, rfl, rfl, by norm_num⟩
  have h := invalid_input_validation ["A"] (.valid 5) (.valid 3)
    (fun _ => []) (fun _ => []) hinv
  exact ⟨hinv, h.1.2, (h.2 (fun _ => some [((0 : Date), (1 : ℚ))]) "oops").1⟩

end Kitt
